import Mathlib

/-!
# Verification of the Flood_ROC_WebApp core pipeline

Shallow embedding of the numerical core of `src/app.py`:

* lines 62-67: assembly of the labeled score dataset with numpy
  (`y_true = concatenate(ones, zeros)`, `y_scores = concatenate(flood, nonflood)`,
  `valid = ~isnan(y_scores)`, boolean-mask filtering), and
* lines 70-71: the calls `roc_curve(y_true, y_scores)` and `auc(fpr, tpr)` from
  `sklearn.metrics`, whose algorithms (stable sort by score descending, one
  cumulative-count candidate point per distinct score, `drop_intermediate=True`
  collinear-point dropping, origin prepending, and the trapezoidal rule of
  `sklearn.metrics.auc` / `np.trapz`) are embedded here faithfully, since the
  repository delegates the whole ROC/AUC computation to them.

Modelling conventions:

* A float is modelled by an exact rational `ℚ`; a value that can be NaN is
  modelled by `Option ℚ` with `none` standing for NaN (IEEE NaN is absorbing in
  arithmetic and every ordered comparison with NaN is false, which the lifted
  operations below reproduce).
* Integer count arrays (`tps`, `fps`, produced by `np.cumsum` on booleans) are
  modelled by `ℕ`.
* A Python exception escaping the pipeline (caught by the blanket
  `except Exception` at line 88 of `src/app.py`) is modelled by `Except`.
-/

namespace FloodROC

/-- A float value that may be NaN: `none` models IEEE NaN. -/
abbrev F : Type := Option ℚ

/-- Errors observable from the core pipeline.  The first two constructors are
the typed errors named by the specification (section 7); the code of
`src/app.py` never raises them — the only failures it can produce are generic
`ValueError`s raised inside the scikit-learn calls, modelled by
`sklearnValueError`. -/
inductive AppError : Type where
  /-- spec section 7 taxonomy entry: a class has zero valid samples (never produced by the code). -/
  | insufficientDataError : AppError
  /-- spec section 7 taxonomy entry: both classes empty (never produced by the code). -/
  | emptyDatasetError : AppError
  /-- a generic `ValueError` raised inside `sklearn.metrics.roc_curve` or `sklearn.metrics.auc`. -/
  | sklearnValueError : AppError
deriving DecidableEq

/-! ## Label Assembler: src/app.py lines 62-67 -/

/-- src/app.py line 62: `y_true = np.concatenate([np.ones(len(flood_vals)), np.zeros(len(nonflood_vals))])`. -/
def y_true (flood nonflood : List F) : List ℚ :=
  List.replicate flood.length 1 ++ List.replicate nonflood.length 0

/-- src/app.py line 63: `y_scores = np.concatenate([flood_vals, nonflood_vals])`. -/
def y_scores (flood nonflood : List F) : List F :=
  flood ++ nonflood

/-- src/app.py line 66: `valid = ~np.isnan(y_scores)` (a boolean mask; `isnan` is
true exactly on NaN, i.e. on `none`). -/
def validMask (flood nonflood : List F) : List Bool :=
  (y_scores flood nonflood).map Option.isSome

/-- numpy boolean-mask indexing `a[mask]` for parallel arrays. -/
def maskFilter {α : Type} (l : List α) (m : List Bool) : List α :=
  (l.zip m).filterMap (fun p => if p.2 then some p.1 else none)

/-- src/app.py line 67 (first half): `y_true = y_true[valid]`. -/
def y_true_v (flood nonflood : List F) : List ℚ :=
  maskFilter (y_true flood nonflood) (validMask flood nonflood)

/-- src/app.py line 67 (second half): `y_scores = y_scores[valid]`; after the
mask every remaining score is non-NaN, so the result lives in `ℚ`. -/
def y_scores_v (flood nonflood : List F) : List ℚ :=
  ((y_scores flood nonflood).zip (validMask flood nonflood)).filterMap
    (fun p => if p.2 then p.1 else none)

/-- The labeled dataset handed to the ROC engine: the two parallel filtered
arrays, zipped into (label, score) pairs (scikit-learn sorts both arrays by
score with a single argsort, which is equivalent to sorting the zipped pairs). -/
def dataset (flood nonflood : List F) : List (ℚ × ℚ) :=
  (y_true_v flood nonflood).zip (y_scores_v flood nonflood)

/-! ## ROC/AUC engine: the scikit-learn algorithms called at lines 70-71 -/

/-- Descending-score order on (label, score) pairs, used by
`np.argsort(y_score, kind="mergesort")[::-1]` inside `_binary_clf_curve`.
(The numpy reversal puts tied scores in reverse input order; the emitted curve
only reads cumulative counts at distinct-score boundaries, which do not depend
on the order inside a tie group, so a stable descending sort is an equivalent
embedding.) -/
def sdRel (a b : ℚ × ℚ) : Prop := b.2 ≤ a.2

instance : DecidableRel sdRel := fun a b => inferInstanceAs (Decidable (b.2 ≤ a.2))

instance : IsTotal (ℚ × ℚ) sdRel := ⟨fun a b => le_total b.2 a.2⟩

instance : IsTrans (ℚ × ℚ) sdRel := ⟨fun _ _ _ h1 h2 => le_trans h2 h1⟩

/-- Sort the dataset by score descending (stable). -/
def sortDesc (y : List (ℚ × ℚ)) : List (ℚ × ℚ) := y.insertionSort sdRel

/-- One point of the cumulative-count curve of `_binary_clf_curve`: running
false-positive count `fp`, running true-positive count `tp`, and the score
value acting as threshold. -/
structure Pt : Type where
  fp : ℕ
  tp : ℕ
  thr : ℚ
deriving DecidableEq

/-- Walk the descending-sorted (label, score) list accumulating
`tps = cumsum(y_true == pos_label)` and `fps = 1 + i - tps`, emitting one
`(fps, tps, threshold)` triple at every index where the score changes and at
the last index (`distinct_value_indices` / `threshold_idxs` of
`_binary_clf_curve`, with `pos_label = 1`). -/
def groupPoints : List (ℚ × ℚ) → ℕ → ℕ → List Pt
  | [], _, _ => []
  | (t, s) :: rest, fp, tp =>
    let fp' := if t = 1 then fp else fp + 1
    let tp' := if t = 1 then tp + 1 else tp
    match rest with
    | [] => [⟨fp', tp', s⟩]
    | (_, s2) :: _ =>
      if s2 = s then groupPoints rest fp' tp'
      else ⟨fp', tp', s⟩ :: groupPoints rest fp' tp'

/-- Keep test of `drop_intermediate`: a middle point `b` with original
neighbours `a` and `c` is kept iff the second difference of `fps` or of `tps`
at `b` is nonzero (`np.logical_or(np.diff(fps, 2), np.diff(tps, 2))`). -/
def keepMid (a b c : Pt) : Bool :=
  !(a.fp + c.fp == 2 * b.fp) || !(a.tp + c.tp == 2 * b.tp)

/-- Drop the interior points whose `keepMid` test fails; `prev` is always the
predecessor of the list head in the original (pre-drop) candidate list, and the
last point is always kept. -/
def dropAux : Pt → List Pt → List Pt
  | _, [] => []
  | _, [b] => [b]
  | a, b :: c :: rest =>
    if keepMid a b c then b :: dropAux b (c :: rest)
    else dropAux b (c :: rest)

/-- The `drop_intermediate=True` step of `roc_curve`: applied only when the
candidate list has more than two points; the first and last points are kept. -/
def dropIntermediate (l : List Pt) : List Pt :=
  if l.length ≤ 2 then l
  else
    match l with
    | [] => []
    | a :: rest => a :: dropAux a rest

/-- Collapse adjacent runs of equal values to their first element.  On a
sorted list this is exactly deduplication, which is the only way it is used
here. -/
def uniqAdj : List ℚ → List ℚ
  | [] => []
  | [a] => [a]
  | a :: b :: r => if a = b then uniqAdj (b :: r) else a :: uniqAdj (b :: r)

/-- `np.unique` of the label array: ascending sort followed by deduplication. -/
def classesOf (y : List (ℚ × ℚ)) : List ℚ :=
  uniqAdj ((y.map Prod.fst).insertionSort (· ≤ ·))

/-- Validation performed by `roc_curve` before computing anything: with
`pos_label=None`, the sorted unique labels must be one of `[0]`, `[1]`, `[-1]`,
`[0, 1]`, `[-1, 1]`; otherwise a `ValueError` is raised (in particular for an
empty input).  When the check passes on `{0,1}`-valued labels, `pos_label`
becomes `1`. -/
def classesOK (y : List (ℚ × ℚ)) : Bool :=
  let cs := classesOf y
  cs == [0] || cs == [1] || cs == [-1] || cs == [0, 1] || cs == [-1, 1]

/-- Output of `roc_curve`.  `fpr`/`tpr` include the prepended origin entry;
`none` models the all-NaN array that `roc_curve` returns (with a warning) for a
rate whose denominator is zero.  `thresholds` lists the retained score-value
thresholds, excluding the synthetic leading threshold (`np.inf`, or
`thresholds[0] + 1` in older releases) that accompanies the prepended origin
and that no claim inspects. -/
structure RocOut : Type where
  fpr : Option (List ℚ)
  tpr : Option (List ℚ)
  thresholds : List ℚ
deriving DecidableEq

/-- The `sklearn.metrics.roc_curve` algorithm (default arguments, as called at
src/app.py line 70): validate labels, sort by score descending, build one
cumulative-count point per distinct score, drop intermediate collinear points,
prepend the origin, and normalise by the final counts — emitting NaN arrays
(here `none`) when a class is absent. -/
def roc_curve (y : List (ℚ × ℚ)) : Except AppError RocOut :=
  if classesOK y then
    let pts := dropIntermediate (groupPoints (sortDesc y) 0 0)
    let nTot := (pts.map Pt.fp).getLastD 0
    let pTot := (pts.map Pt.tp).getLastD 0
    let fpsAll : List ℕ := 0 :: pts.map Pt.fp
    let tpsAll : List ℕ := 0 :: pts.map Pt.tp
    .ok
      { fpr := if nTot = 0 then none else some (fpsAll.map (fun k : ℕ => (k : ℚ) / (nTot : ℚ)))
        tpr := if pTot = 0 then none else some (tpsAll.map (fun k : ℕ => (k : ℚ) / (pTot : ℚ)))
        thresholds := pts.map Pt.thr }
  else .error .sklearnValueError

/-! ### NaN-aware float arithmetic for `sklearn.metrics.auc` -/

/-- Float addition with NaN propagation. -/
def fAdd (a b : F) : F := a.bind fun x => b.map fun y => x + y

/-- Float subtraction with NaN propagation. -/
def fSub (a b : F) : F := a.bind fun x => b.map fun y => x - y

/-- Float multiplication with NaN propagation (in IEEE arithmetic `0 * NaN` is
NaN, so NaN is absorbing for the values arising here). -/
def fMul (a b : F) : F := a.bind fun x => b.map fun y => x * y

/-- Ordered comparison `a < 0`; false when `a` is NaN, as in IEEE arithmetic. -/
def fLt0 (a : F) : Bool := match a with | some q => decide (q < 0) | none => false

/-- Ordered comparison `a ≤ 0`; false when `a` is NaN. -/
def fLe0 (a : F) : Bool := match a with | some q => decide (q ≤ 0) | none => false

/-- `np.diff`: consecutive differences. -/
def diffs : List F → List F
  | a :: b :: r => fSub b a :: diffs (b :: r)
  | _ => []

/-- Sum of a list of floats (empty sum is `0`, one NaN term makes the sum NaN). -/
def fSum (l : List F) : F := l.foldr fAdd (some 0)

/-- The trapezoid terms of `np.trapz(y, x)`: `(x[i+1]-x[i]) * (y[i]+y[i+1]) / 2`. -/
def trapzTerms : List F → List F → List F
  | x1 :: x2 :: xr, y1 :: y2 :: yr =>
    fMul (fSub x2 x1) (fMul (fAdd y1 y2) (some (1 / 2))) :: trapzTerms (x2 :: xr) (y2 :: yr)
  | _, _ => []

/-- `np.trapz(y, x)`. -/
def np_trapz (y x : List F) : F := fSum (trapzTerms x y)

/-- The `sklearn.metrics.auc(x, y)` algorithm (called at src/app.py line 71):
fail on fewer than two points, determine the direction from `np.diff(x)`
(raising `ValueError` when `x` is neither increasing nor decreasing; NaN
entries compare false, as in numpy), and return `direction * np.trapz(y, x)`. -/
def sk_auc (x y : List F) : Except AppError F :=
  if x.length < 2 then .error .sklearnValueError
  else
    let dx := diffs x
    if dx.any fLt0 then
      if dx.all fLe0 then .ok (fMul (some (-1)) (np_trapz y x))
      else .error .sklearnValueError
    else .ok (np_trapz y x)

/-- Width of the NaN-or-not arrays returned by `roc_curve`: one entry per
retained threshold plus the prepended origin entry. -/
def RocOut.width (o : RocOut) : ℕ := o.thresholds.length + 1

/-- View an optionally-NaN rate array as an elementwise float array. -/
def toF (a : Option (List ℚ)) (len : ℕ) : List F :=
  match a with
  | some l => l.map some
  | none => List.replicate len none

/-- Lines 70-71 of src/app.py on an assembled dataset: compute the ROC curve,
then the AUC of its `(fpr, tpr)` polyline. -/
def engine (y : List (ℚ × ℚ)) : Except AppError (RocOut × F) :=
  match roc_curve y with
  | .error e => .error e
  | .ok o =>
    match sk_auc (toF o.fpr o.width) (toF o.tpr o.width) with
    | .error e => .error e
    | .ok a => .ok (o, a)

/-- The AUC value alone. -/
def engine_auc (y : List (ℚ × ℚ)) : Except AppError F :=
  (engine y).map Prod.snd

/-- The whole core pipeline of src/app.py lines 62-71, from the two sampled
score arrays (NaN = `none`) to the ROC curve and AUC; an uncaught library
exception surfaces as `Except.error`, matching the blanket handler at line 88. -/
def app_run (flood nonflood : List F) : Except AppError (RocOut × F) :=
  engine (dataset flood nonflood)

/-! ## Specification-side quantities -/

/-- Count of Positive entries of a labeled dataset. -/
def posCount (y : List (ℚ × ℚ)) : ℕ := y.countP (fun e => e.1 == 1)

/-- Count of Negative entries of a labeled dataset. -/
def negCount (y : List (ℚ × ℚ)) : ℕ := y.countP (fun e => !(e.1 == 1))

/-- Scores of the Positive entries. -/
def posScores (y : List (ℚ × ℚ)) : List ℚ :=
  (y.filter (fun e => e.1 == 1)).map Prod.snd

/-- Scores of the Negative entries. -/
def negScores (y : List (ℚ × ℚ)) : List ℚ :=
  (y.filter (fun e => !(e.1 == 1))).map Prod.snd

/-- Mann-Whitney pair count named by the spec (section 8): number of
(positive, negative) pairs whose positive score is strictly greater. -/
def gtPairs (y : List (ℚ × ℚ)) : ℕ :=
  ((posScores y).map (fun p => (negScores y).countP (fun n => decide (n < p)))).sum

/-- Mann-Whitney tie count named by the spec (section 8): number of
(positive, negative) pairs with equal scores. -/
def tiePairs (y : List (ℚ × ℚ)) : ℕ :=
  ((posScores y).map (fun p => (negScores y).countP (fun n => n == p))).sum

/-- Distinct score values of a descending-sorted list: the strictly descending
list of distinct scores (adjacent-run deduplication of the score column). -/
def dedupScores (y : List (ℚ × ℚ)) : List ℚ := uniqAdj (y.map Prod.snd)

/-- Number of Negative entries with score at or above the threshold `d`. -/
def cnGE (y : List (ℚ × ℚ)) (d : ℚ) : ℕ :=
  y.countP (fun e => !(e.1 == 1) && decide (d ≤ e.2))

/-- Number of Positive entries with score at or above the threshold `d`. -/
def cpGE (y : List (ℚ × ℚ)) (d : ℚ) : ℕ :=
  y.countP (fun e => (e.1 == 1) && decide (d ≤ e.2))

/-- Trapezoid area of the cumulative-count polyline continued from the base
point `(bfp, btp)` (exact rational arithmetic). -/
def TcP (bfp btp : ℚ) : List Pt → ℚ
  | [] => 0
  | q :: r => ((q.fp : ℚ) - bfp) * (btp + (q.tp : ℚ)) / 2 + TcP (q.fp : ℚ) (q.tp : ℚ) r

/-- Trapezoid area of the `(x, y)` polyline over exact rationals
(`np.trapz` without NaN). -/
def trapzQ : List ℚ → List ℚ → ℚ
  | x1 :: x2 :: xr, y1 :: y2 :: yr => (x2 - x1) * (y1 + y2) / 2 + trapzQ (x2 :: xr) (y2 :: yr)
  | _, _ => 0

/-- Number of non-NaN entries of a sampled score array. -/
def validCount (l : List F) : ℕ := l.countP Option.isSome

instance {ε α : Type} [DecidableEq ε] [DecidableEq α] : DecidableEq (Except ε α) := fun x y =>
  match x, y with
  | .ok a, .ok b =>
    if h : a = b then .isTrue (congrArg Except.ok h)
    else .isFalse (fun hc => h (Except.ok.inj hc))
  | .error a, .error b =>
    if h : a = b then .isTrue (congrArg Except.error h)
    else .isFalse (fun hc => h (Except.error.inj hc))
  | .ok _, .error _ => .isFalse (fun hc => Except.noConfusion hc)
  | .error _, .ok _ => .isFalse (fun hc => Except.noConfusion hc)

/-! ## The assembler in declarative form -/

/-- Masking two parallel arrays with the validity mask of the score array is
the same as filtering the zipped (label, score) pairs by score presence. -/
theorem maskFilter_zip_eq (lab : List ℚ) (sc : List F) (hlen : lab.length = sc.length) :
    (maskFilter lab (sc.map Option.isSome)).zip
        ((sc.zip (sc.map Option.isSome)).filterMap (fun p => if p.2 then p.1 else none)) =
      (lab.zip sc).filterMap (fun e => e.2.map (fun v => (e.1, v))) := by
  induction lab generalizing sc with
  | nil => simp [maskFilter]
  | cons a lab ih =>
    cases sc with
    | nil => simp at hlen
    | cons s sc =>
      have hlen' : lab.length = sc.length := by simpa using hlen
      cases s with
      | some v =>
        simpa [maskFilter, List.zip_cons_cons, List.filterMap_cons] using ih sc hlen'
      | none =>
        simpa [maskFilter, List.zip_cons_cons, List.filterMap_cons] using ih sc hlen'

/-- Zipping a constant-replicate label array with a score array of the same
length tags every score with that label. -/
theorem zip_replicate_eq_map (c : ℚ) (l : List F) :
    (List.replicate l.length c).zip l = l.map (fun s => (c, s)) := by
  induction l with
  | nil => rfl
  | cons a l ih => simp [List.replicate_succ, List.zip_cons_cons, ih]

/-- Zipping the concatenated label array with the concatenated score array
tags every positive score with `1` and every negative score with `0`. -/
theorem y_true_zip_y_scores (flood nonflood : List F) :
    (y_true flood nonflood).zip (y_scores flood nonflood) =
      flood.map (fun s => ((1 : ℚ), s)) ++ nonflood.map (fun s => ((0 : ℚ), s)) := by
  simp only [y_true, y_scores]
  induction flood with
  | nil => simpa using zip_replicate_eq_map 0 nonflood
  | cons s fl ih =>
    simpa [List.replicate_succ, List.zip_cons_cons] using ih

/-- The assembled dataset in declarative form: tag the positive scores with
label `1` and the negative scores with label `0`, preserving input order within
each class, concatenate, and drop exactly the entries whose score is missing. -/
theorem dataset_eq (flood nonflood : List F) :
    dataset flood nonflood =
      (flood.map (fun s => ((1 : ℚ), s)) ++ nonflood.map (fun s => ((0 : ℚ), s))).filterMap
        (fun e => e.2.map (fun v => (e.1, v))) := by
  have hlen : (y_true flood nonflood).length = (y_scores flood nonflood).length := by
    simp [y_true, y_scores]
  have h := maskFilter_zip_eq (y_true flood nonflood) (y_scores flood nonflood) hlen
  rw [dataset, y_true_v, y_scores_v, validMask, h, y_true_zip_y_scores]

/-- Every label produced by the assembler is `1` or `0`. -/
theorem dataset_labels (flood nonflood : List F) :
    ∀ e ∈ dataset flood nonflood, e.1 = 1 ∨ e.1 = 0 := by
  intro e he
  rw [dataset_eq] at he
  rcases List.mem_filterMap.mp he with ⟨a, ha, hmap⟩
  rcases List.mem_append.mp ha with h | h
  · rcases List.mem_map.mp h with ⟨s, _, rfl⟩
    cases s with
    | none => simp at hmap
    | some v => left; simp at hmap; simp [← hmap]
  · rcases List.mem_map.mp h with ⟨s, _, rfl⟩
    cases s with
    | none => simp at hmap
    | some v => right; simp at hmap; simp [← hmap]

/-- The Positive count of the assembled dataset is the number of non-NaN
positive input scores. -/
theorem posCount_dataset (flood nonflood : List F) :
    posCount (dataset flood nonflood) = validCount flood := by
  rw [dataset_eq]
  induction flood with
  | nil =>
    simp only [List.map_nil, List.nil_append, validCount, List.countP_nil]
    induction nonflood with
    | nil => rfl
    | cons s nf ih =>
      cases s with
      | none => simpa [posCount, List.filterMap_cons] using ih
      | some v => simpa [posCount, List.filterMap_cons, List.countP_cons] using ih
  | cons s fl ih =>
    cases s with
    | none => simpa [posCount, List.filterMap_cons, validCount, List.countP_cons] using ih
    | some v =>
      simp only [List.map_cons, List.cons_append, List.filterMap_cons, Option.map_some'] at *
      simpa [posCount, List.countP_cons, validCount] using ih

/-- The Negative count of the assembled dataset is the number of non-NaN
negative input scores. -/
theorem negCount_dataset (flood nonflood : List F) :
    negCount (dataset flood nonflood) = validCount nonflood := by
  rw [dataset_eq]
  induction flood with
  | nil =>
    simp only [List.map_nil, List.nil_append]
    induction nonflood with
    | nil => rfl
    | cons s nf ih =>
      cases s with
      | none => simpa [negCount, List.filterMap_cons, validCount, List.countP_cons] using ih
      | some v => simpa [negCount, List.filterMap_cons, List.countP_cons, validCount, List.countP_cons] using ih
  | cons s fl ih =>
    cases s with
    | none => simpa [negCount, List.filterMap_cons] using ih
    | some v => simpa [negCount, List.filterMap_cons, List.countP_cons] using ih

/-! ## Facts about the descending sort -/

theorem sortDesc_sorted (y : List (ℚ × ℚ)) : List.Sorted sdRel (sortDesc y) :=
  List.sorted_insertionSort sdRel y

theorem sortDesc_perm (y : List (ℚ × ℚ)) : List.Perm (sortDesc y) y :=
  List.perm_insertionSort sdRel y

theorem mem_uniqAdj {l : List ℚ} {d : ℚ} (h : d ∈ uniqAdj l) : d ∈ l := by
  induction l with
  | nil => simpa [uniqAdj] using h
  | cons a l ih =>
    cases l with
    | nil => simpa [uniqAdj] using h
    | cons b r =>
      rw [uniqAdj] at h
      by_cases hab : a = b
      · simp only [if_pos hab] at h
        exact List.mem_cons_of_mem a (ih h)
      · simp only [if_neg hab] at h
        rcases List.mem_cons.mp h with h | h
        · exact h ▸ List.mem_cons_self a _
        · exact List.mem_cons_of_mem a (ih h)

theorem mem_dedupScores {S : List (ℚ × ℚ)} {d : ℚ} (h : d ∈ dedupScores S) :
    ∃ e ∈ S, e.2 = d := by
  have := mem_uniqAdj h
  rcases List.mem_map.mp this with ⟨e, he, rfl⟩
  exact ⟨e, he, rfl⟩

/-! ## Count lemmas for thresholds -/

theorem cnGE_cons_le (e : ℚ × ℚ) (S : List (ℚ × ℚ)) {d : ℚ} (hd : d ≤ e.2) :
    cnGE (e :: S) d = (if e.1 = 1 then 0 else 1) + cnGE S d := by
  simp only [cnGE, List.countP_cons]
  by_cases h1 : e.1 = 1 <;> simp [h1, hd, Nat.add_comm]

theorem cpGE_cons_le (e : ℚ × ℚ) (S : List (ℚ × ℚ)) {d : ℚ} (hd : d ≤ e.2) :
    cpGE (e :: S) d = (if e.1 = 1 then 1 else 0) + cpGE S d := by
  simp only [cpGE, List.countP_cons]
  by_cases h1 : e.1 = 1 <;> simp [h1, hd, Nat.add_comm]

theorem cnGE_eq_zero {S : List (ℚ × ℚ)} {d : ℚ} (h : ∀ e ∈ S, e.2 < d) :
    cnGE S d = 0 := by
  refine List.countP_eq_zero.mpr (fun e he => ?_)
  simp [not_le.mpr (h e he)]

theorem cpGE_eq_zero {S : List (ℚ × ℚ)} {d : ℚ} (h : ∀ e ∈ S, e.2 < d) :
    cpGE S d = 0 := by
  refine List.countP_eq_zero.mpr (fun e he => ?_)
  simp [not_le.mpr (h e he)]

/-! ## Closed form of the cumulative-count curve -/

/-- Closed form of `groupPoints` on a descending-sorted list: one point per
distinct score value `d`, whose counts are the accumulators plus the number of
negative (resp. positive) entries with score at or above `d`. -/
theorem groupPoints_closed :
    ∀ S : List (ℚ × ℚ), List.Sorted sdRel S → ∀ fp tp : ℕ,
      groupPoints S fp tp =
        (dedupScores S).map (fun d => ⟨fp + cnGE S d, tp + cpGE S d, d⟩) := by
  intro S
  induction S with
  | nil => intro _ fp tp; rfl
  | cons e S' ih =>
    obtain ⟨t, s⟩ := e
    intro hS fp tp
    have hhead : ∀ b ∈ S', b.2 ≤ s := (List.sorted_cons.mp hS).1
    have hS' : List.Sorted sdRel S' := (List.sorted_cons.mp hS).2
    cases S' with
    | nil =>
      by_cases h1 : t = 1 <;>
        simp [groupPoints, dedupScores, uniqAdj, cnGE, cpGE, List.countP_cons, h1]
    | cons e2 R =>
      obtain ⟨t2, s2⟩ := e2
      have hs2 : s2 ≤ s := hhead (t2, s2) (List.mem_cons_self _ _)
      by_cases heq : s2 = s
      · have hL : groupPoints ((t, s) :: (t2, s2) :: R) fp tp =
            groupPoints ((t2, s2) :: R)
              (if t = 1 then fp else fp + 1) (if t = 1 then tp + 1 else tp) := by
          rw [groupPoints]
          simp [heq]
        have hD : dedupScores ((t, s) :: (t2, s2) :: R) = dedupScores ((t2, s2) :: R) := by
          simp [dedupScores, uniqAdj, heq]
        rw [hL, hD, ih hS' _ _]
        refine List.map_congr_left (fun d hd => ?_)
        have hdle : d ≤ s := by
          rcases mem_dedupScores hd with ⟨b, hb, rfl⟩
          rcases List.mem_cons.mp hb with h | h
          · exact h ▸ hs2
          · exact hhead b (List.mem_cons_of_mem _ h)
        rw [cnGE_cons_le (t, s) ((t2, s2) :: R) hdle, cpGE_cons_le (t, s) ((t2, s2) :: R) hdle]
        by_cases h1 : t = 1 <;> simp [h1, Pt.mk.injEq] <;> omega
      · have heq' : ¬s = s2 := fun h => heq h.symm
        have hlt : ∀ b ∈ (t2, s2) :: R, b.2 < s := by
          intro b hb
          rcases List.mem_cons.mp hb with h | h
          · exact h ▸ lt_of_le_of_ne hs2 heq
          · have hble : b.2 ≤ s2 := (List.sorted_cons.mp hS').1 b h
            exact lt_of_le_of_lt hble (lt_of_le_of_ne hs2 heq)
        have hL : groupPoints ((t, s) :: (t2, s2) :: R) fp tp =
            (⟨if t = 1 then fp else fp + 1, if t = 1 then tp + 1 else tp, s⟩ : Pt) ::
              groupPoints ((t2, s2) :: R)
                (if t = 1 then fp else fp + 1) (if t = 1 then tp + 1 else tp) := by
          rw [groupPoints]
          simp [heq, heq']
        have hD : dedupScores ((t, s) :: (t2, s2) :: R) = s :: dedupScores ((t2, s2) :: R) := by
          simp [dedupScores, uniqAdj, heq, heq']
        rw [hL, hD, ih hS' _ _]
        have hhead_pt : (⟨if t = 1 then fp else fp + 1, if t = 1 then tp + 1 else tp, s⟩ : Pt) =
            ⟨fp + cnGE ((t, s) :: (t2, s2) :: R) s, tp + cpGE ((t, s) :: (t2, s2) :: R) s, s⟩ := by
          rw [cnGE_cons_le (t, s) ((t2, s2) :: R) (le_refl s),
            cpGE_cons_le (t, s) ((t2, s2) :: R) (le_refl s),
            cnGE_eq_zero hlt, cpGE_eq_zero hlt]
          by_cases h1 : t = 1 <;> simp [h1]
        rw [hhead_pt]
        refine congrArg _ (List.map_congr_left (fun d hd => ?_))
        have hdle : d ≤ s := by
          rcases mem_dedupScores hd with ⟨b, hb, rfl⟩
          exact le_of_lt (hlt b hb)
        rw [cnGE_cons_le (t, s) ((t2, s2) :: R) hdle, cpGE_cons_le (t, s) ((t2, s2) :: R) hdle]
        by_cases h1 : t = 1 <;> simp [h1, Pt.mk.injEq] <;> omega

/-! ## Totals of the cumulative counts -/

theorem groupPoints_ne_nil (e : ℚ × ℚ) (S : List (ℚ × ℚ)) (fp tp : ℕ) :
    groupPoints (e :: S) fp tp ≠ [] := by
  induction S generalizing e fp tp with
  | nil => obtain ⟨t, s⟩ := e; simp [groupPoints]
  | cons e2 R ih =>
    obtain ⟨t, s⟩ := e
    obtain ⟨t2, s2⟩ := e2
    rw [groupPoints]
    by_cases heq : s2 = s <;> simp [heq] <;> exact ih _ _ _

/-- The last emitted point carries the total counts: the accumulators plus the
number of negative resp. positive entries of the remaining list. -/
theorem groupPoints_getLast (S : List (ℚ × ℚ)) (hne : S ≠ []) (fp tp : ℕ) :
    ∃ q : Pt, (groupPoints S fp tp).getLast? = some q ∧
      q.fp = fp + negCount S ∧ q.tp = tp + posCount S := by
  induction S generalizing fp tp with
  | nil => exact absurd rfl hne
  | cons e S' ih =>
    obtain ⟨t, s⟩ := e
    cases S' with
    | nil =>
      refine ⟨⟨if t = 1 then fp else fp + 1, if t = 1 then tp + 1 else tp, s⟩, by
        simp [groupPoints], ?_, ?_⟩ <;>
        by_cases h1 : t = 1 <;> simp [h1, negCount, posCount, List.countP_cons]
    | cons e2 R =>
      obtain ⟨t2, s2⟩ := e2
      obtain ⟨q, hq, hqfp, hqtp⟩ :=
        ih (List.cons_ne_nil _ _) (if t = 1 then fp else fp + 1) (if t = 1 then tp + 1 else tp)
      have hcount_n : negCount ((t, s) :: (t2, s2) :: R) =
          (if t = 1 then 0 else 1) + negCount ((t2, s2) :: R) := by
        by_cases h1 : t = 1 <;> simp [h1, negCount, List.countP_cons, Nat.add_comm]
      have hcount_p : posCount ((t, s) :: (t2, s2) :: R) =
          (if t = 1 then 1 else 0) + posCount ((t2, s2) :: R) := by
        by_cases h1 : t = 1 <;> simp [h1, posCount, List.countP_cons, Nat.add_comm]
      refine ⟨q, ?_, ?_, ?_⟩
      · rw [groupPoints]
        by_cases heq : s2 = s
        · simpa [heq] using hq
        · have heq' : ¬s = s2 := fun h => heq h.symm
          simp only [heq, heq', if_false]
          obtain ⟨r0, r', hr⟩ :=
            List.exists_cons_of_ne_nil (groupPoints_ne_nil (t2, s2) R
              (if t = 1 then fp else fp + 1) (if t = 1 then tp + 1 else tp))
          rw [hr] at hq ⊢
          simpa [List.getLast?_cons_cons] using hq
      · rw [hcount_n]
        by_cases h1 : t = 1 <;> simp [h1] at hqfp ⊢ <;> omega
      · rw [hcount_p]
        by_cases h1 : t = 1 <;> simp [h1] at hqtp ⊢ <;> omega

/-! ## Facts about the drop-intermediate step -/

theorem dropAux_ne_nil (a b : Pt) (l : List Pt) : dropAux a (b :: l) ≠ [] := by
  induction l generalizing a b with
  | nil => simp [dropAux]
  | cons c r ih =>
    rw [dropAux]
    by_cases hk : keepMid a b c <;> simp [hk] <;> exact ih b c

theorem dropAux_sublist (a : Pt) (l : List Pt) : (dropAux a l).Sublist l := by
  induction l generalizing a with
  | nil => simp [dropAux]
  | cons b r ih =>
    cases r with
    | nil => simp [dropAux]
    | cons c r' =>
      rw [dropAux]
      by_cases hk : keepMid a b c
      · simpa [hk] using List.Sublist.cons₂ b (ih b)
      · simpa [hk] using List.Sublist.cons b (ih b)

theorem dropAux_getLast? (a : Pt) (l : List Pt) : (dropAux a l).getLast? = l.getLast? := by
  induction l generalizing a with
  | nil => rfl
  | cons b r ih =>
    cases r with
    | nil => rfl
    | cons c r' =>
      rw [dropAux]
      by_cases hk : keepMid a b c
      · simp only [hk, if_true]
        obtain ⟨d0, d', hd⟩ := List.exists_cons_of_ne_nil (dropAux_ne_nil b c r')
        rw [hd, List.getLast?_cons_cons, ← hd, ih b, List.getLast?_cons_cons]
      · simp only [hk, Bool.false_eq_true, if_false]
        rw [ih b, List.getLast?_cons_cons]

theorem dropIntermediate_sublist (l : List Pt) : (dropIntermediate l).Sublist l := by
  rw [dropIntermediate.eq_def]
  by_cases hlen : l.length ≤ 2
  · simp [hlen]
  · cases l with
    | nil => simp
    | cons a rest =>
      have hlen' : ¬rest.length ≤ 1 := by simpa using hlen
      simpa [hlen, hlen'] using List.Sublist.cons₂ a (dropAux_sublist a rest)

theorem dropIntermediate_getLast? (l : List Pt) :
    (dropIntermediate l).getLast? = l.getLast? := by
  rw [dropIntermediate.eq_def]
  by_cases hlen : l.length ≤ 2
  · simp [hlen]
  · cases l with
    | nil => simp
    | cons a rest =>
      simp only [hlen, if_false]
      cases rest with
      | nil => rfl
      | cons b r' =>
        obtain ⟨d0, d', hd⟩ := List.exists_cons_of_ne_nil (dropAux_ne_nil a b r')
        rw [hd, List.getLast?_cons_cons, ← hd, dropAux_getLast? a, List.getLast?_cons_cons]

theorem dropIntermediate_head? (l : List Pt) : (dropIntermediate l).head? = l.head? := by
  rw [dropIntermediate.eq_def]
  by_cases hlen : l.length ≤ 2
  · simp [hlen]
  · cases l with
    | nil => simp
    | cons a rest =>
      have hlen' : ¬rest.length ≤ 1 := by simpa using hlen
      simp [hlen, hlen']

theorem dropIntermediate_ne_nil (l : List Pt) (h : l ≠ []) : dropIntermediate l ≠ [] := by
  rw [dropIntermediate.eq_def]
  by_cases hlen : l.length ≤ 2
  · simpa [hlen] using h
  · cases l with
    | nil => simp at h
    | cons a rest =>
      have hlen' : ¬rest.length ≤ 1 := by simpa using hlen
      simp [hlen, hlen']

/-! ## Area preservation of the drop-intermediate step -/

theorem TcP_nil (bfp btp : ℚ) : TcP bfp btp [] = 0 := rfl

theorem TcP_cons (bfp btp : ℚ) (q : Pt) (r : List Pt) :
    TcP bfp btp (q :: r) =
      ((q.fp : ℚ) - bfp) * (btp + (q.tp : ℚ)) / 2 + TcP (q.fp : ℚ) (q.tp : ℚ) r := rfl

/-- Dropping interior points with vanishing second differences preserves the
trapezoid area, and the head of the result lies on the ray from the previous
point through the original head. -/
theorem dropAux_spec :
    ∀ (l : List Pt) (a : Pt),
      TcP (a.fp : ℚ) (a.tp : ℚ) (dropAux a l) = TcP (a.fp : ℚ) (a.tp : ℚ) l ∧
        ∀ b bs, l = b :: bs →
          ∃ (h : Pt) (t' : List Pt) (k : ℚ),
            dropAux a l = h :: t' ∧
              (h.fp : ℚ) - (a.fp : ℚ) = k * ((b.fp : ℚ) - (a.fp : ℚ)) ∧
              (h.tp : ℚ) - (a.tp : ℚ) = k * ((b.tp : ℚ) - (a.tp : ℚ)) := by
  intro l
  induction l with
  | nil =>
    intro a
    exact ⟨rfl, fun b bs h => by simp at h⟩
  | cons b bs ih =>
    intro a
    cases bs with
    | nil =>
      refine ⟨rfl, fun b' bs' h => ?_⟩
      obtain ⟨h1, h2⟩ := List.cons.inj h
      subst h1
      subst h2
      exact ⟨b, [], 1, rfl, by ring, by ring⟩
    | cons c rest =>
      by_cases hk : keepMid a b c
      · have hd : dropAux a (b :: c :: rest) = b :: dropAux b (c :: rest) := by
          rw [dropAux]; simp [hk]
        constructor
        · rw [hd, TcP_cons, TcP_cons, (ih b).1]
        · intro b' bs' h
          obtain ⟨h1, h2⟩ := List.cons.inj h
          subst h1
          subst h2
          exact ⟨b, dropAux b (c :: rest), 1, hd, by ring, by ring⟩
      · have hd : dropAux a (b :: c :: rest) = dropAux b (c :: rest) := by
          rw [dropAux]; simp [hk]
        have hcol : a.fp + c.fp = 2 * b.fp ∧ a.tp + c.tp = 2 * b.tp := by
          have h0 := hk
          simp only [keepMid, Bool.or_eq_true, not_or] at h0
          obtain ⟨h0a, h0b⟩ := h0
          simp at h0a h0b
          exact ⟨h0a, h0b⟩
        have hb1 : (c.fp : ℚ) - (b.fp : ℚ) = (b.fp : ℚ) - (a.fp : ℚ) := by
          have h1 : (a.fp : ℚ) + (c.fp : ℚ) = 2 * (b.fp : ℚ) := by
            exact_mod_cast congrArg (fun n : ℕ => (n : ℚ)) hcol.1
          linarith
        have hb2 : (c.tp : ℚ) - (b.tp : ℚ) = (b.tp : ℚ) - (a.tp : ℚ) := by
          have h1 : (a.tp : ℚ) + (c.tp : ℚ) = 2 * (b.tp : ℚ) := by
            exact_mod_cast congrArg (fun n : ℕ => (n : ℚ)) hcol.2
          linarith
        obtain ⟨h, t', k, hX, hk1, hk2⟩ := (ih b).2 c rest rfl
        have hfp : (h.fp : ℚ) = (b.fp : ℚ) + k * ((b.fp : ℚ) - (a.fp : ℚ)) := by
          rw [hb1] at hk1; linarith
        have htp : (h.tp : ℚ) = (b.tp : ℚ) + k * ((b.tp : ℚ) - (a.tp : ℚ)) := by
          rw [hb2] at hk2; linarith
        constructor
        · rw [hd, hX, TcP_cons]
          have harea : TcP (b.fp : ℚ) (b.tp : ℚ) (h :: t') = TcP (b.fp : ℚ) (b.tp : ℚ) (c :: rest) := by
            rw [← hX]; exact (ih b).1
          rw [TcP_cons, TcP_cons] at harea
          have hseg : ((h.fp : ℚ) - (a.fp : ℚ)) * ((a.tp : ℚ) + (h.tp : ℚ)) / 2 =
              ((b.fp : ℚ) - (a.fp : ℚ)) * ((a.tp : ℚ) + (b.tp : ℚ)) / 2 +
                ((h.fp : ℚ) - (b.fp : ℚ)) * ((b.tp : ℚ) + (h.tp : ℚ)) / 2 := by
            rw [hfp, htp]; ring
          rw [TcP_cons (a.fp : ℚ) (a.tp : ℚ) b (c :: rest), TcP_cons]
          linarith
        · intro b' bs' hbb
          obtain ⟨h1, h2⟩ := List.cons.inj hbb
          subst h1
          subst h2
          refine ⟨h, t', k + 1, by rw [hd, hX], by rw [hfp]; ring, by rw [htp]; ring⟩

/-- The drop-intermediate step preserves the trapezoid area of the polyline
continued from any base point. -/
theorem dropIntermediate_area (l : List Pt) (bfp btp : ℚ) :
    TcP bfp btp (dropIntermediate l) = TcP bfp btp l := by
  rw [dropIntermediate.eq_def]
  by_cases hlen : l.length ≤ 2
  · simp [hlen]
  · cases l with
    | nil => simp
    | cons a rest =>
      have hlen' : ¬rest.length ≤ 1 := by simpa using hlen
      simp only [hlen, hlen', if_false]
      rw [TcP_cons, TcP_cons, (dropAux_spec rest a).1]

/-! ## Pair-count bookkeeping -/

theorem sum_map_constN {α : Type} (l : List α) (c : ℕ) :
    (l.map (fun _ => c)).sum = l.length * c := by
  induction l with
  | nil => simp
  | cons a l ih => simp [ih, Nat.succ_mul, Nat.add_comm]

theorem posScores_append (A B : List (ℚ × ℚ)) :
    posScores (A ++ B) = posScores A ++ posScores B := by
  simp [posScores, List.filter_append]

theorem negScores_append (A B : List (ℚ × ℚ)) :
    negScores (A ++ B) = negScores A ++ negScores B := by
  simp [negScores, List.filter_append]

theorem posScores_length (A : List (ℚ × ℚ)) : (posScores A).length = posCount A := by
  simp [posScores, posCount, List.countP_eq_length_filter]

theorem negScores_length (A : List (ℚ × ℚ)) : (negScores A).length = negCount A := by
  simp [negScores, negCount, List.countP_eq_length_filter]

theorem mem_posScores {A : List (ℚ × ℚ)} {p : ℚ} (h : p ∈ posScores A) :
    ∃ e ∈ A, e.2 = p := by
  rcases List.mem_map.mp h with ⟨e, he, rfl⟩
  exact ⟨e, List.mem_of_mem_filter he, rfl⟩

theorem mem_negScores {A : List (ℚ × ℚ)} {n : ℚ} (h : n ∈ negScores A) :
    ∃ e ∈ A, e.2 = n := by
  rcases List.mem_map.mp h with ⟨e, he, rfl⟩
  exact ⟨e, List.mem_of_mem_filter he, rfl⟩

/-- Splitting the strict-majorisation pair count at a maximal tie run: `R` is a
run of entries all scoring `s`, `B` the remaining entries all scoring below
`s`. -/
theorem gtPairs_run_split (R B : List (ℚ × ℚ)) (s : ℚ)
    (hR : ∀ x ∈ R, x.2 = s) (hB : ∀ x ∈ B, x.2 < s) :
    gtPairs (R ++ B) = posCount R * negCount B + gtPairs B := by
  have hposR : ∀ p ∈ posScores R, p = s := fun p hp => by
    rcases mem_posScores hp with ⟨e, he, rfl⟩; exact hR e he
  have hnegR : ∀ n ∈ negScores R, n = s := fun n hn => by
    rcases mem_negScores hn with ⟨e, he, rfl⟩; exact hR e he
  have hposB : ∀ p ∈ posScores B, p < s := fun p hp => by
    rcases mem_posScores hp with ⟨e, he, rfl⟩; exact hB e he
  have hnegB : ∀ n ∈ negScores B, n < s := fun n hn => by
    rcases mem_negScores hn with ⟨e, he, rfl⟩; exact hB e he
  rw [gtPairs, posScores_append, negScores_append, List.map_append, List.sum_append]
  have h1 : ((posScores R).map
      (fun p => (negScores R ++ negScores B).countP (fun n => decide (n < p)))).sum =
      posCount R * negCount B := by
    have hmap : ∀ p ∈ posScores R,
        (negScores R ++ negScores B).countP (fun n => decide (n < p)) = negCount B := by
      intro p hp
      rw [List.countP_append]
      have hz : (negScores R).countP (fun n => decide (n < p)) = 0 :=
        List.countP_eq_zero.mpr (fun n hn => by
          simp [hnegR n hn, hposR p hp])
      have hall : (negScores B).countP (fun n => decide (n < p)) = (negScores B).length :=
        List.countP_eq_length.mpr (fun n hn => by
          simp [hposR p hp, hnegB n hn])
      rw [hz, hall, negScores_length, Nat.zero_add]
    rw [List.map_congr_left hmap, sum_map_constN, posScores_length]
  have h2 : ((posScores B).map
      (fun p => (negScores R ++ negScores B).countP (fun n => decide (n < p)))).sum =
      gtPairs B := by
    have hmap : ∀ p ∈ posScores B,
        (negScores R ++ negScores B).countP (fun n => decide (n < p)) =
          (negScores B).countP (fun n => decide (n < p)) := by
      intro p hp
      rw [List.countP_append]
      have hz : (negScores R).countP (fun n => decide (n < p)) = 0 :=
        List.countP_eq_zero.mpr (fun n hn => by
          have h1 : n = s := hnegR n hn
          have h2 : p < s := hposB p hp
          simp [h1, not_lt.mpr (le_of_lt h2)])
      rw [hz, Nat.zero_add]
    rw [List.map_congr_left hmap]
    rfl
  rw [h1, h2]

/-- Splitting the tie pair count at a maximal tie run. -/
theorem tiePairs_run_split (R B : List (ℚ × ℚ)) (s : ℚ)
    (hR : ∀ x ∈ R, x.2 = s) (hB : ∀ x ∈ B, x.2 < s) :
    tiePairs (R ++ B) = posCount R * negCount R + tiePairs B := by
  have hposR : ∀ p ∈ posScores R, p = s := fun p hp => by
    rcases mem_posScores hp with ⟨e, he, rfl⟩; exact hR e he
  have hnegR : ∀ n ∈ negScores R, n = s := fun n hn => by
    rcases mem_negScores hn with ⟨e, he, rfl⟩; exact hR e he
  have hposB : ∀ p ∈ posScores B, p < s := fun p hp => by
    rcases mem_posScores hp with ⟨e, he, rfl⟩; exact hB e he
  have hnegB : ∀ n ∈ negScores B, n < s := fun n hn => by
    rcases mem_negScores hn with ⟨e, he, rfl⟩; exact hB e he
  rw [tiePairs, posScores_append, negScores_append, List.map_append, List.sum_append]
  have h1 : ((posScores R).map
      (fun p => (negScores R ++ negScores B).countP (fun n => n == p))).sum =
      posCount R * negCount R := by
    have hmap : ∀ p ∈ posScores R,
        (negScores R ++ negScores B).countP (fun n => n == p) = negCount R := by
      intro p hp
      rw [List.countP_append]
      have hall : (negScores R).countP (fun n => n == p) = (negScores R).length :=
        List.countP_eq_length.mpr (fun n hn => by
          simp [hnegR n hn, hposR p hp])
      have hz : (negScores B).countP (fun n => n == p) = 0 :=
        List.countP_eq_zero.mpr (fun n hn => by
          have h1 : n < s := hnegB n hn
          have h2 : p = s := hposR p hp
          simp [h2, ne_of_lt h1])
      rw [hz, hall, negScores_length, Nat.add_zero]
    rw [List.map_congr_left hmap, sum_map_constN, posScores_length]
  have h2 : ((posScores B).map
      (fun p => (negScores R ++ negScores B).countP (fun n => n == p))).sum =
      tiePairs B := by
    have hmap : ∀ p ∈ posScores B,
        (negScores R ++ negScores B).countP (fun n => n == p) =
          (negScores B).countP (fun n => n == p) := by
      intro p hp
      rw [List.countP_append]
      have hz : (negScores R).countP (fun n => n == p) = 0 :=
        List.countP_eq_zero.mpr (fun n hn => by
          have h1 : n = s := hnegR n hn
          have h2 : p < s := hposB p hp
          simp [h1, Ne.symm (ne_of_lt h2)])
      rw [hz, Nat.zero_add]
    rw [List.map_congr_left hmap]
    rfl
  rw [h1, h2]

theorem gtPairs_perm {y y' : List (ℚ × ℚ)} (h : List.Perm y y') :
    gtPairs y = gtPairs y' := by
  have hpos : List.Perm (posScores y) (posScores y') := (h.filter _).map _
  have hneg : ∀ p : ℚ, (negScores y).countP (fun n => decide (n < p)) =
      (negScores y').countP (fun n => decide (n < p)) := fun p =>
    ((h.filter _).map _).countP_eq _
  rw [gtPairs, gtPairs]
  rw [List.map_congr_left (fun p _ => hneg p)]
  exact (hpos.map _).sum_eq

theorem tiePairs_perm {y y' : List (ℚ × ℚ)} (h : List.Perm y y') :
    tiePairs y = tiePairs y' := by
  have hpos : List.Perm (posScores y) (posScores y') := (h.filter _).map _
  have hneg : ∀ p : ℚ, (negScores y).countP (fun n => n == p) =
      (negScores y').countP (fun n => n == p) := fun p =>
    ((h.filter _).map _).countP_eq _
  rw [tiePairs, tiePairs]
  rw [List.map_congr_left (fun p _ => hneg p)]
  exact (hpos.map _).sum_eq

theorem posCount_perm {y y' : List (ℚ × ℚ)} (h : List.Perm y y') :
    posCount y = posCount y' := h.countP_eq _

theorem negCount_perm {y y' : List (ℚ × ℚ)} (h : List.Perm y y') :
    negCount y = negCount y' := h.countP_eq _

/-! ## The Mann-Whitney identity for the candidate curve -/

theorem TcP_shift (pts : List Pt) (u v : ℕ) :
    ∀ bf bt : ℚ,
      TcP (bf + (u : ℚ)) (bt + (v : ℚ))
          (pts.map (fun q => ⟨q.fp + u, q.tp + v, q.thr⟩)) =
        TcP bf bt pts +
          (v : ℚ) * ((pts.map (fun q => (q.fp : ℚ))).getLastD bf - bf) := by
  induction pts with
  | nil => intro bf bt; simp [TcP_nil]
  | cons q r ih =>
    intro bf bt
    rw [List.map_cons, TcP_cons, List.map_cons, TcP_cons, List.getLastD_cons]
    push_cast
    rw [ih (q.fp : ℚ) (q.tp : ℚ)]
    ring

theorem cnGE_run_all (A : List (ℚ × ℚ)) (d : ℚ) (h : ∀ x ∈ A, d ≤ x.2) :
    cnGE A d = negCount A := by
  refine List.countP_congr (fun x hx => ?_)
  simp [h x hx]

theorem cpGE_run_all (A : List (ℚ × ℚ)) (d : ℚ) (h : ∀ x ∈ A, d ≤ x.2) :
    cpGE A d = posCount A := by
  refine List.countP_congr (fun x hx => ?_)
  simp [h x hx]

theorem cnGE_append (A B : List (ℚ × ℚ)) (d : ℚ) :
    cnGE (A ++ B) d = cnGE A d + cnGE B d := List.countP_append _ _ _

theorem cpGE_append (A B : List (ℚ × ℚ)) (d : ℚ) :
    cpGE (A ++ B) d = cpGE A d + cpGE B d := List.countP_append _ _ _

theorem negCount_append (A B : List (ℚ × ℚ)) :
    negCount (A ++ B) = negCount A + negCount B := List.countP_append _ _ _

theorem posCount_append (A B : List (ℚ × ℚ)) :
    posCount (A ++ B) = posCount A + posCount B := List.countP_append _ _ _

theorem dropWhile_head_false {α : Type} (p : α → Bool) :
    ∀ (l : List α) (x : α) (xs : List α), l.dropWhile p = x :: xs → p x = false := by
  intro l
  induction l with
  | nil => intro x xs h; simp at h
  | cons a l' ih =>
    intro x xs h
    rw [List.dropWhile_cons] at h
    by_cases hp : p a = true
    · exact ih x xs (by simpa [hp] using h)
    · have hpa : p a = false := by simpa using hp
      obtain ⟨h1, _⟩ := List.cons.inj (by simpa [hpa] using h)
      rw [← h1]; exact hpa

theorem uniqAdj_run (s : ℚ) :
    ∀ (rs m : List ℚ), rs ≠ [] → (∀ x ∈ rs, x = s) →
      (∀ x xs, m = x :: xs → x ≠ s) → uniqAdj (rs ++ m) = s :: uniqAdj m := by
  intro rs
  induction rs with
  | nil => intro m h; exact absurd rfl h
  | cons a rs' ih =>
    intro m _ hall hm
    have ha : a = s := hall a (List.mem_cons_self _ _)
    cases rs' with
    | nil =>
      cases m with
      | nil => simp [uniqAdj, ha]
      | cons b m' =>
        have hb : b ≠ s := hm b m' rfl
        have hab : ¬a = b := fun h => hb (h.symm.trans ha)
        simp [uniqAdj, hab, ha]
        exact fun h => hb h.symm
    | cons a2 rs'' =>
      have ha2 : a2 = s := hall a2 (List.mem_cons_of_mem _ (List.mem_cons_self _ _))
      have hrec := ih m (List.cons_ne_nil _ _)
        (fun x hx => hall x (List.mem_cons_of_mem _ hx)) hm
      have haa2 : a = a2 := ha.trans ha2.symm
      calc uniqAdj ((a :: a2 :: rs'') ++ m)
          = uniqAdj ((a2 :: rs'') ++ m) := by
            simp [uniqAdj, haa2]
        _ = s :: uniqAdj m := hrec

theorem getLastD_map_fpQ (l : List Pt) (q : Pt) (h : l.getLast? = some q) :
    ((l.map (fun r => (r.fp : ℚ))).getLastD 0) = (q.fp : ℚ) := by
  rw [List.getLastD_eq_getLast?, List.getLast?_map, h]
  rfl

/-- The trapezoid area of the full cumulative-count candidate curve (origin
included as base point) equals the Mann-Whitney count `gt + ties / 2`. -/
theorem TcP_groupPoints_eq :
    ∀ (n : ℕ) (S : List (ℚ × ℚ)), S.length ≤ n → List.Sorted sdRel S →
      TcP 0 0 (groupPoints S 0 0) = (gtPairs S : ℚ) + (tiePairs S : ℚ) / 2 := by
  intro n
  induction n with
  | zero =>
    intro S hlen _
    have hS : S = [] := by
      cases S with
      | nil => rfl
      | cons a l => simp at hlen
    subst hS
    simp [gtPairs, tiePairs, posScores, negScores, TcP_nil, groupPoints]
  | succ n ih =>
    intro S hlen hS
    cases hSe : S with
    | nil => simp [gtPairs, tiePairs, posScores, negScores, TcP_nil, groupPoints]
    | cons e S0 =>
      rw [← hSe]
      have hSne : S ≠ [] := by rw [hSe]; exact List.cons_ne_nil _ _
      set s : ℚ := e.2 with hs
      set R : List (ℚ × ℚ) := S.takeWhile (fun x => x.2 == s) with hR
      set B : List (ℚ × ℚ) := S.dropWhile (fun x => x.2 == s) with hB
      have hsplit : R ++ B = S := List.takeWhile_append_dropWhile _ _
      have hRne : R ≠ [] := by
        rw [hR, hSe, List.takeWhile_cons_of_pos (by simp [hs, hSe])]
        exact List.cons_ne_nil _ _
      have hRmem : ∀ x ∈ R, x.2 = s := by
        intro x hx
        have := List.mem_takeWhile_imp (hR ▸ hx)
        simpa using this
      have hBsub : B.Sublist S := hB ▸ List.dropWhile_sublist _
      have hBsorted : List.Sorted sdRel B := List.Pairwise.sublist hBsub hS
      have hSle : ∀ x ∈ S, x.2 ≤ s := by
        intro x hx
        rw [hSe] at hx
        rcases List.mem_cons.mp hx with h | h
        · exact le_of_eq (h ▸ rfl)
        · exact (List.sorted_cons.mp (hSe ▸ hS)).1 x h
      have hBmem : ∀ x ∈ B, x.2 < s := by
        intro x hx
        cases hBe : B with
        | nil => rw [hBe] at hx; simp at hx
        | cons b bs =>
          have hbzero : (fun x : ℚ × ℚ => x.2 == s) b = false :=
            dropWhile_head_false _ S b bs (hB ▸ hBe)
          have hbne : b.2 ≠ s := by simpa using hbzero
          have hble : b.2 ≤ s := hSle b (hBsub.mem (hBe ▸ List.mem_cons_self _ _))
          have hblt : b.2 < s := lt_of_le_of_ne hble hbne
          rw [hBe] at hx
          rcases List.mem_cons.mp hx with h | h
          · exact h ▸ hblt
          · have : x.2 ≤ b.2 := (List.sorted_cons.mp (hBe ▸ hBsorted)).1 x h
            exact lt_of_le_of_lt this hblt
      have hRlen : 1 ≤ R.length := by
        cases hRe : R with
        | nil => exact absurd hRe hRne
        | cons a l => simp
      have hBlen : B.length ≤ n := by
        have hlen2 : R.length + B.length = S.length := by
          rw [← List.length_append, hsplit]
        omega
      have hIH := ih B hBlen hBsorted
      -- closed forms
      have hclosedS := groupPoints_closed S hS 0 0
      have hclosedB := groupPoints_closed B hBsorted 0 0
      -- distinct scores split
      have hD : dedupScores S = s :: dedupScores B := by
        rw [dedupScores, ← hsplit, List.map_append]
        refine uniqAdj_run s _ _ ?_ ?_ ?_
        · intro h
          exact hRne (List.map_eq_nil.mp h)
        · intro x hx
          rcases List.mem_map.mp hx with ⟨b0, hb0, rfl⟩
          exact hRmem b0 hb0
        · intro x xs hxs
          have hx : x ∈ List.map Prod.snd B := hxs ▸ List.mem_cons_self _ _
          rcases List.mem_map.mp hx with ⟨b0, hb0, rfl⟩
          exact ne_of_lt (hBmem b0 hb0)
      -- counts at the run threshold
      have hcn_s : cnGE S s = negCount R := by
        rw [← hsplit, cnGE_append, cnGE_run_all R s (fun x hx => le_of_eq (hRmem x hx).symm),
          cnGE_eq_zero (fun x hx => hBmem x hx), Nat.add_zero]
      have hcp_s : cpGE S s = posCount R := by
        rw [← hsplit, cpGE_append, cpGE_run_all R s (fun x hx => le_of_eq (hRmem x hx).symm),
          cpGE_eq_zero (fun x hx => hBmem x hx), Nat.add_zero]
      -- counts below the run
      have hcn_d : ∀ d ∈ dedupScores B, cnGE S d = negCount R + cnGE B d := by
        intro d hd
        rcases mem_dedupScores hd with ⟨b0, hb0, rfl⟩
        have hds : b0.2 ≤ s := le_of_lt (hBmem b0 hb0)
        rw [← hsplit, cnGE_append,
          cnGE_run_all R b0.2 (fun x hx => (hRmem x hx).symm ▸ hds)]
      have hcp_d : ∀ d ∈ dedupScores B, cpGE S d = posCount R + cpGE B d := by
        intro d hd
        rcases mem_dedupScores hd with ⟨b0, hb0, rfl⟩
        have hds : b0.2 ≤ s := le_of_lt (hBmem b0 hb0)
        rw [← hsplit, cpGE_append,
          cpGE_run_all R b0.2 (fun x hx => (hRmem x hx).symm ▸ hds)]
      -- rewrite the tail of the candidate curve as a shifted copy of the curve of B
      have htail : (dedupScores B).map
            (fun d => ({ fp := 0 + cnGE S d, tp := 0 + cpGE S d, thr := d } : Pt)) =
          ((dedupScores B).map
            (fun d => ({ fp := 0 + cnGE B d, tp := 0 + cpGE B d, thr := d } : Pt))).map
              (fun q => ⟨q.fp + negCount R, q.tp + posCount R, q.thr⟩) := by
        rw [List.map_map]
        refine List.map_congr_left (fun d hd => ?_)
        simp only [Function.comp_apply, Pt.mk.injEq]
        refine ⟨?_, ?_, trivial⟩
        · rw [hcn_d d hd]; omega
        · rw [hcp_d d hd]; omega
      have hptsB : (dedupScores B).map
            (fun d => ({ fp := 0 + cnGE B d, tp := 0 + cpGE B d, thr := d } : Pt)) =
          groupPoints B 0 0 := hclosedB.symm
      have hlast : ((groupPoints B 0 0).map (fun q => (q.fp : ℚ))).getLastD 0 =
          (negCount B : ℚ) := by
        cases hBe : B with
        | nil => simp [groupPoints, negCount]
        | cons b bs =>
          obtain ⟨q, hq, hqfp, _⟩ :=
            groupPoints_getLast B (by rw [hBe]; exact List.cons_ne_nil _ _) 0 0
          rw [← hBe, getLastD_map_fpQ _ q hq, hqfp]
          simp
      rw [hclosedS, hD, List.map_cons, htail, hptsB, TcP_cons]
      have hshift := TcP_shift (groupPoints B 0 0) (negCount R) (posCount R) 0 0
      simp only [zero_add] at hshift
      simp only [Nat.zero_add]
      rw [hcn_s, hcp_s, hshift, hIH, hlast]
      rw [← hsplit, gtPairs_run_split R B s hRmem hBmem, tiePairs_run_split R B s hRmem hBmem]
      push_cast
      ring
/-! ## Structure of the roc_curve output -/

theorem uniqAdj_const (c : ℚ) :
    ∀ l : List ℚ, l ≠ [] → (∀ x ∈ l, x = c) → uniqAdj l = [c] := by
  intro l
  induction l with
  | nil => intro h; exact absurd rfl h
  | cons a l' ih =>
    intro _ hall
    have ha : a = c := hall a (List.mem_cons_self _ _)
    cases l' with
    | nil => simp [uniqAdj, ha]
    | cons b l'' =>
      have hb : b = c := hall b (List.mem_cons_of_mem _ (List.mem_cons_self _ _))
      have hrec := ih (List.cons_ne_nil _ _) (fun x hx => hall x (List.mem_cons_of_mem _ hx))
      rw [show uniqAdj (a :: b :: l'') = uniqAdj (b :: l'') by
        simp [uniqAdj, ha.trans hb.symm]]
      exact hrec

theorem uniqAdj_sublist : ∀ l : List ℚ, (uniqAdj l).Sublist l := by
  intro l
  induction l with
  | nil => simp [uniqAdj]
  | cons a l' ih =>
    cases l' with
    | nil => simp [uniqAdj]
    | cons b l'' =>
      rw [uniqAdj]
      by_cases hab : a = b
      · simpa [hab] using List.Sublist.cons a ih
      · simpa [hab] using List.Sublist.cons₂ a ih

theorem uniqAdj_pairwise_gt :
    ∀ l : List ℚ, List.Pairwise (fun a b : ℚ => b ≤ a) l →
      List.Pairwise (fun a b : ℚ => b < a) (uniqAdj l) := by
  intro l
  induction l with
  | nil => intro _; simp [uniqAdj]
  | cons a l' ih =>
    intro hl
    obtain ⟨hhead, htail⟩ := List.pairwise_cons.mp hl
    cases l' with
    | nil => simp [uniqAdj]
    | cons b l'' =>
      rw [uniqAdj]
      by_cases hab : a = b
      · simpa [hab] using ih htail
      · have hba : b ≤ a := hhead b (List.mem_cons_self _ _)
        have hfirst : ∀ x ∈ uniqAdj (b :: l''), x < a := by
          intro x hx
          have hxmem : x ∈ b :: l'' := (uniqAdj_sublist _).mem hx
          rcases List.mem_cons.mp hxmem with h | h
          · exact h ▸ lt_of_le_of_ne hba (fun hc => hab hc.symm)
          · have hxb : x ≤ b := (List.pairwise_cons.mp htail).1 x h
            exact lt_of_le_of_lt hxb (lt_of_le_of_ne hba (fun hc => hab hc.symm))
        simpa [hab] using List.pairwise_cons.mpr ⟨hfirst, ih htail⟩

theorem getLastD_map_of_getLast? {α β : Type} (f : α → β) (l : List α) (q : α) (d : β)
    (h : l.getLast? = some q) : (l.map f).getLastD d = f q := by
  rw [List.getLastD_eq_getLast?, List.getLast?_map, h]
  rfl

/-- Sorted {0,1}-valued label lists containing both classes deduplicate to
`[0, 1]`. -/
theorem uniqAdj_zero_one :
    ∀ l : List ℚ, List.Sorted (· ≤ ·) l → (∀ x ∈ l, x = 0 ∨ x = 1) →
      0 ∈ l → 1 ∈ l → uniqAdj l = [0, 1] := by
  intro l
  induction l with
  | nil => intro _ _ h0; simp at h0
  | cons a l' ih =>
    intro hl hall h0 h1
    obtain ⟨hhead, htail⟩ := List.sorted_cons.mp hl
    have ha : a = 0 := by
      rcases hall a (List.mem_cons_self _ _) with h | h
      · exact h
      · exfalso
        rcases List.mem_cons.mp h0 with hz | hz
        · rw [h] at hz; norm_num at hz
        · have := hhead 0 hz
          rw [h] at this
          norm_num at this
    have h1' : (1 : ℚ) ∈ l' := by
      rcases List.mem_cons.mp h1 with h | h
      · rw [← h] at ha; norm_num at ha
      · exact h
    cases l' with
    | nil => simp at h1'
    | cons b l'' =>
      rcases hall b (List.mem_cons_of_mem _ (List.mem_cons_self _ _)) with hb | hb
      · rw [show uniqAdj (a :: b :: l'') = uniqAdj (b :: l'') by
          simp [uniqAdj, ha.trans hb.symm]]
        exact ih htail (fun x hx => hall x (List.mem_cons_of_mem _ hx))
          (hb ▸ List.mem_cons_self _ _) h1'
      · have hone : ∀ x ∈ b :: l'', x = (1 : ℚ) := by
          intro x hx
          rcases hall x (List.mem_cons_of_mem _ hx) with h | h
          · exfalso
            have hbx : b ≤ x := by
              rcases List.mem_cons.mp hx with hh | hh
              · exact le_of_eq hh.symm
              · exact (List.sorted_cons.mp htail).1 x hh
            rw [hb, h] at hbx
            norm_num at hbx
          · exact h
        have hab : ¬a = b := by rw [ha, hb]; norm_num
        rw [show uniqAdj (a :: b :: l'') = a :: uniqAdj (b :: l'') by
          simp [uniqAdj, hab]]
        rw [uniqAdj_const 1 (b :: l'') (List.cons_ne_nil _ _) hone, ha]

/-- With both classes present among {0,1}-valued labels, the scikit-learn label
validation computes the class list `[0, 1]` and passes. -/
theorem classesOf_eq_01 (y : List (ℚ × ℚ)) (hlab : ∀ e ∈ y, e.1 = 1 ∨ e.1 = 0)
    (hP : 0 < posCount y) (hN : 0 < negCount y) : classesOf y = [0, 1] := by
  rw [classesOf]
  have hperm : List.Perm ((y.map Prod.fst).insertionSort (· ≤ ·)) (y.map Prod.fst) :=
    List.perm_insertionSort _ _
  refine uniqAdj_zero_one _ (List.sorted_insertionSort _ _) ?_ ?_ ?_
  · intro x hx
    rcases List.mem_map.mp (hperm.mem_iff.mp hx) with ⟨e, he, rfl⟩
    exact (hlab e he).symm
  · obtain ⟨e, he, hpe⟩ := List.countP_pos.mp hN
    have he0 : e.1 = 0 := by
      rcases hlab e he with h | h
      · exfalso; simp [h] at hpe
      · exact h
    exact hperm.mem_iff.mpr (List.mem_map.mpr ⟨e, he, he0⟩)
  · obtain ⟨e, he, hpe⟩ := List.countP_pos.mp hP
    have he1 : e.1 = 1 := by simpa using hpe
    exact hperm.mem_iff.mpr (List.mem_map.mpr ⟨e, he, he1⟩)

theorem classesOK_of_01 (y : List (ℚ × ℚ)) (hlab : ∀ e ∈ y, e.1 = 1 ∨ e.1 = 0)
    (hP : 0 < posCount y) (hN : 0 < negCount y) : classesOK y = true := by
  simp [classesOK, classesOf_eq_01 y hlab hP hN]

theorem sortDesc_ne_nil {y : List (ℚ × ℚ)} (h : y ≠ []) : sortDesc y ≠ [] := by
  intro hc
  have := (sortDesc_perm y).length_eq
  rw [hc] at this
  exact h (List.length_eq_zero.mp this.symm)

theorem y_ne_nil_of_posCount {y : List (ℚ × ℚ)} (hP : 0 < posCount y) : y ≠ [] := by
  intro hc
  rw [hc] at hP
  simp [posCount] at hP

/-- The final false-positive count of the (dropped) curve is the Negative
total. -/
theorem pts_fp_last (y : List (ℚ × ℚ)) (hyne : y ≠ []) :
    ((dropIntermediate (groupPoints (sortDesc y) 0 0)).map Pt.fp).getLastD 0 = negCount y := by
  obtain ⟨q, hq, hqfp, _⟩ := groupPoints_getLast (sortDesc y) (sortDesc_ne_nil hyne) 0 0
  have hlast : (dropIntermediate (groupPoints (sortDesc y) 0 0)).getLast? = some q := by
    rw [dropIntermediate_getLast?, hq]
  rw [getLastD_map_of_getLast? Pt.fp _ q 0 hlast, hqfp, Nat.zero_add]
  exact negCount_perm (sortDesc_perm y)

/-- The final true-positive count of the (dropped) curve is the Positive
total. -/
theorem pts_tp_last (y : List (ℚ × ℚ)) (hyne : y ≠ []) :
    ((dropIntermediate (groupPoints (sortDesc y) 0 0)).map Pt.tp).getLastD 0 = posCount y := by
  obtain ⟨q, hq, _, hqtp⟩ := groupPoints_getLast (sortDesc y) (sortDesc_ne_nil hyne) 0 0
  have hlast : (dropIntermediate (groupPoints (sortDesc y) 0 0)).getLast? = some q := by
    rw [dropIntermediate_getLast?, hq]
  rw [getLastD_map_of_getLast? Pt.tp _ q 0 hlast, hqtp, Nat.zero_add]
  exact posCount_perm (sortDesc_perm y)

/-- The value `roc_curve` returns on a dataset with both classes present. -/
theorem roc_curve_eq (y : List (ℚ × ℚ)) (hlab : ∀ e ∈ y, e.1 = 1 ∨ e.1 = 0)
    (hP : 0 < posCount y) (hN : 0 < negCount y) :
    roc_curve y = .ok
      ⟨some ((0 :: (dropIntermediate (groupPoints (sortDesc y) 0 0)).map Pt.fp).map
          (fun k : ℕ => (k : ℚ) / (negCount y : ℚ))),
        some ((0 :: (dropIntermediate (groupPoints (sortDesc y) 0 0)).map Pt.tp).map
          (fun k : ℕ => (k : ℚ) / (posCount y : ℚ))),
        (dropIntermediate (groupPoints (sortDesc y) 0 0)).map Pt.thr⟩ := by
  have hyne : y ≠ [] := y_ne_nil_of_posCount hP
  have h1 := classesOK_of_01 y hlab hP hN
  have h2 := pts_fp_last y hyne
  have h3 := pts_tp_last y hyne
  have hN' : negCount y ≠ 0 := Nat.pos_iff_ne_zero.mp hN
  have hP' : posCount y ≠ 0 := Nat.pos_iff_ne_zero.mp hP
  rw [List.getLastD_eq_getLast?, List.getLast?_map] at h2 h3
  simp [roc_curve, h1, h2, h3, hN', hP']

/-! ## Shape of the rate arrays -/

theorem scores_pairwise_ge (y : List (ℚ × ℚ)) :
    List.Pairwise (fun a b : ℚ => b ≤ a) ((sortDesc y).map Prod.snd) :=
  List.Pairwise.map _ (fun _ _ h => h) (sortDesc_sorted y)

theorem dedupScores_pairwise_gt (y : List (ℚ × ℚ)) :
    List.Pairwise (fun a b : ℚ => b < a) (dedupScores (sortDesc y)) :=
  uniqAdj_pairwise_gt _ (scores_pairwise_ge y)

theorem groupPoints_fp_pairwise (y : List (ℚ × ℚ)) :
    List.Pairwise (fun q q' : Pt => q.fp ≤ q'.fp) (groupPoints (sortDesc y) 0 0) := by
  rw [groupPoints_closed (sortDesc y) (sortDesc_sorted y) 0 0]
  refine List.Pairwise.map _ ?_ (dedupScores_pairwise_gt y)
  intro d d' hdd
  simp only [Nat.zero_add]
  exact List.countP_mono_left (fun e _ he => by
    simp only [Bool.and_eq_true, decide_eq_true_eq] at he ⊢
    exact ⟨he.1, le_trans (le_of_lt hdd) he.2⟩)

theorem groupPoints_tp_pairwise (y : List (ℚ × ℚ)) :
    List.Pairwise (fun q q' : Pt => q.tp ≤ q'.tp) (groupPoints (sortDesc y) 0 0) := by
  rw [groupPoints_closed (sortDesc y) (sortDesc_sorted y) 0 0]
  refine List.Pairwise.map _ ?_ (dedupScores_pairwise_gt y)
  intro d d' hdd
  simp only [Nat.zero_add]
  exact List.countP_mono_left (fun e _ he => by
    simp only [Bool.and_eq_true, decide_eq_true_eq] at he ⊢
    exact ⟨he.1, le_trans (le_of_lt hdd) he.2⟩)

theorem groupPoints_fp_le (y : List (ℚ × ℚ)) (q : Pt)
    (hq : q ∈ groupPoints (sortDesc y) 0 0) : q.fp ≤ negCount y := by
  rw [groupPoints_closed (sortDesc y) (sortDesc_sorted y) 0 0] at hq
  rcases List.mem_map.mp hq with ⟨d, _, rfl⟩
  simp only [Nat.zero_add]
  rw [← negCount_perm (sortDesc_perm y)]
  exact List.countP_mono_left (fun e _ he => by
    simp only [Bool.and_eq_true] at he
    exact he.1)

theorem groupPoints_tp_le (y : List (ℚ × ℚ)) (q : Pt)
    (hq : q ∈ groupPoints (sortDesc y) 0 0) : q.tp ≤ posCount y := by
  rw [groupPoints_closed (sortDesc y) (sortDesc_sorted y) 0 0] at hq
  rcases List.mem_map.mp hq with ⟨d, _, rfl⟩
  simp only [Nat.zero_add]
  rw [← posCount_perm (sortDesc_perm y)]
  exact List.countP_mono_left (fun e _ he => by
    simp only [Bool.and_eq_true] at he
    exact he.1)

/-- Monotone `ℕ` count lists divided by a positive total give a monotone,
`[0,1]`-bounded rational list. -/
theorem rate_list_sorted (lN : List ℕ) (c : ℕ) (hc : 0 < c)
    (hmono : List.Pairwise (fun a b : ℕ => a ≤ b) lN) :
    List.Pairwise (fun a b : ℚ => a ≤ b) (lN.map (fun k : ℕ => (k : ℚ) / (c : ℚ))) := by
  refine List.Pairwise.map _ ?_ hmono
  intro a b hab
  have hc' : (0 : ℚ) < (c : ℚ) := by exact_mod_cast hc
  exact div_le_div_of_nonneg_right (by exact_mod_cast hab) (le_of_lt hc') |>.trans_eq rfl

theorem rate_list_mem_bounds (lN : List ℕ) (c : ℕ) (hc : 0 < c)
    (hle : ∀ k ∈ lN, k ≤ c) :
    ∀ q ∈ lN.map (fun k : ℕ => (k : ℚ) / (c : ℚ)), 0 ≤ q ∧ q ≤ 1 := by
  intro q hq
  rcases List.mem_map.mp hq with ⟨k, hk, rfl⟩
  have hc' : (0 : ℚ) < (c : ℚ) := by exact_mod_cast hc
  constructor
  · positivity
  · rw [div_le_one hc']
    exact_mod_cast hle k hk

/-! ## Evaluating the trapezoidal AUC on a valid curve -/

theorem diffs_map_some_nonneg :
    ∀ l : List ℚ, List.Pairwise (fun a b : ℚ => a ≤ b) l →
      ∀ x ∈ diffs (l.map some), fLt0 x = false := by
  intro l
  induction l with
  | nil => intro _ x hx; simp [diffs] at hx
  | cons a l' ih =>
    intro hl x hx
    obtain ⟨hhead, htail⟩ := List.pairwise_cons.mp hl
    cases l' with
    | nil => simp [diffs] at hx
    | cons b l'' =>
      rw [List.map_cons, List.map_cons, diffs] at hx
      rcases List.mem_cons.mp hx with h | h
      · have hab : a ≤ b := hhead b (List.mem_cons_self _ _)
        rw [h]
        simp [fSub, fLt0, sub_nonneg.mpr hab, not_lt.mpr (sub_nonneg.mpr hab)]
      · exact ih htail x (by simpa [List.map_cons] using h)

theorem np_trapz_map_some :
    ∀ (xs ys : List ℚ), np_trapz (ys.map some) (xs.map some) = some (trapzQ xs ys) := by
  intro xs
  induction xs with
  | nil => intro ys; simp [np_trapz, trapzTerms, fSum, trapzQ]
  | cons x1 xs' ih =>
    intro ys
    cases ys with
    | nil => simp [np_trapz, trapzTerms, fSum, trapzQ]
    | cons y1 ys' =>
      cases xs' with
      | nil => simp [np_trapz, trapzTerms, fSum, trapzQ]
      | cons x2 xr =>
        cases ys' with
        | nil => simp [np_trapz, trapzTerms, fSum, trapzQ]
        | cons y2 yr =>
          have hih := ih (y2 :: yr)
          rw [np_trapz] at hih ⊢
          simp only [List.map_cons, trapzTerms] at hih ⊢
          rw [fSum] at hih ⊢
          rw [List.foldr_cons, hih]
          simp [fSub, fAdd, fMul, trapzQ]
          ring

theorem sk_auc_eval (lf lt : List ℚ) (hsort : List.Pairwise (fun a b : ℚ => a ≤ b) lf)
    (hlen : 2 ≤ lf.length) :
    sk_auc (lf.map some) (lt.map some) = .ok (some (trapzQ lf lt)) := by
  have hlen2 : ¬((lf.map some).length < 2) := by simpa using not_lt.mpr hlen
  have hany : (diffs (lf.map some)).any fLt0 = false :=
    List.any_eq_false.mpr (fun x hx => by simp [diffs_map_some_nonneg lf hsort x hx])
  simp only [sk_auc, hlen2, if_false, hany, Bool.false_eq_true, np_trapz_map_some]

/-- Dividing the count polyline pointwise by the totals scales the trapezoid
area by `1 / (N * P)`. -/
theorem trapzQ_scale (cN cP : ℕ) (hN : cN ≠ 0) (hP : cP ≠ 0) :
    ∀ (pts : List Pt) (bf bt : ℕ),
      trapzQ ((bf :: pts.map Pt.fp).map (fun k : ℕ => (k : ℚ) / (cN : ℚ)))
          ((bt :: pts.map Pt.tp).map (fun k : ℕ => (k : ℚ) / (cP : ℚ))) =
        TcP (bf : ℚ) (bt : ℚ) pts / ((cN : ℚ) * (cP : ℚ)) := by
  intro pts
  induction pts with
  | nil => intro bf bt; simp [trapzQ, TcP_nil]
  | cons q r ih =>
    intro bf bt
    have hN' : ((cN : ℚ)) ≠ 0 := Nat.cast_ne_zero.mpr hN
    have hP' : ((cP : ℚ)) ≠ 0 := Nat.cast_ne_zero.mpr hP
    have hih := ih q.fp q.tp
    simp only [List.map_cons] at hih ⊢
    rw [trapzQ, hih, TcP_cons]
    field_simp
    ring

/-- On a dataset with both classes present, the engine returns exactly the
Mann-Whitney value `(gt + ties / 2) / (P * N)` as its AUC. -/
theorem engine_auc_mannWhitney (y : List (ℚ × ℚ)) (hlab : ∀ e ∈ y, e.1 = 1 ∨ e.1 = 0)
    (hP : 0 < posCount y) (hN : 0 < negCount y) :
    engine_auc y = .ok (some (((gtPairs y : ℚ) + (tiePairs y : ℚ) / 2) /
      ((posCount y : ℚ) * (negCount y : ℚ)))) := by
  have hyne : y ≠ [] := y_ne_nil_of_posCount hP
  have hroc := roc_curve_eq y hlab hP hN
  have hptsne : dropIntermediate (groupPoints (sortDesc y) 0 0) ≠ [] := by
    obtain ⟨e, S0, hS⟩ := List.exists_cons_of_ne_nil (sortDesc_ne_nil hyne)
    rw [hS]
    exact dropIntermediate_ne_nil _ (groupPoints_ne_nil e S0 0 0)
  have hfp_pair : List.Pairwise (fun a b : ℕ => a ≤ b)
      (0 :: (dropIntermediate (groupPoints (sortDesc y) 0 0)).map Pt.fp) := by
    refine List.pairwise_cons.mpr ⟨fun k _ => Nat.zero_le k, ?_⟩
    exact List.Pairwise.map _ (fun a b h => h)
      (List.Pairwise.sublist (dropIntermediate_sublist _) (groupPoints_fp_pairwise y))
  have hlen : 2 ≤ ((0 :: (dropIntermediate (groupPoints (sortDesc y) 0 0)).map Pt.fp).map
      (fun k : ℕ => (k : ℚ) / (negCount y : ℚ))).length := by
    obtain ⟨q, qs, hq⟩ := List.exists_cons_of_ne_nil hptsne
    rw [hq]
    simp
  have hsorted := rate_list_sorted _ (negCount y) hN hfp_pair
  have hauc := sk_auc_eval
    ((0 :: (dropIntermediate (groupPoints (sortDesc y) 0 0)).map Pt.fp).map
      (fun k : ℕ => (k : ℚ) / (negCount y : ℚ)))
    ((0 :: (dropIntermediate (groupPoints (sortDesc y) 0 0)).map Pt.tp).map
      (fun k : ℕ => (k : ℚ) / (posCount y : ℚ)))
    hsorted hlen
  have htrapz := trapzQ_scale (negCount y) (posCount y)
    (Nat.pos_iff_ne_zero.mp hN) (Nat.pos_iff_ne_zero.mp hP)
    (dropIntermediate (groupPoints (sortDesc y) 0 0)) 0 0
  simp only [Nat.cast_zero] at htrapz
  have harea := dropIntermediate_area (groupPoints (sortDesc y) 0 0) 0 0
  have hmw := TcP_groupPoints_eq (sortDesc y).length (sortDesc y) le_rfl (sortDesc_sorted y)
  simp only [engine_auc, engine, hroc, toF, Except.map, hauc]
  rw [htrapz, harea, hmw, gtPairs_perm (sortDesc_perm y), tiePairs_perm (sortDesc_perm y),
    mul_comm ((negCount y : ℚ)) ((posCount y : ℚ))]

/-! ## Claim theorems: assembler and concrete scenarios -/

/-- C5: assembly produces exactly `len(positive_scores)` entries labeled
Positive (label `1`) followed by `len(negative_scores)` entries labeled
Negative (label `0`), preserving input order within each class, and then
removes exactly the entries whose score is missing (NaN), leaving every other
(label, score) pairing intact. -/
theorem C5_assembler_shape (flood nonflood : List F) :
    dataset flood nonflood =
      (flood.map (fun s => ((1 : ℚ), s)) ++ nonflood.map (fun s => ((0 : ℚ), s))).filterMap
        (fun e => e.2.map (fun v => (e.1, v))) :=
  dataset_eq flood nonflood

/-- C10: only NaN scores are treated as missing; any non-NaN numeric sentinel
(such as a raster no-data value of `-9999`) is kept in the labeled dataset as a
valid score, and therefore participates in the ROC/AUC computation performed on
that dataset. -/
theorem C10_sentinel_kept (flood nonflood : List F) (v : ℚ) :
    (some v ∈ flood → ((1 : ℚ), v) ∈ dataset flood nonflood) ∧
      (some v ∈ nonflood → ((0 : ℚ), v) ∈ dataset flood nonflood) := by
  constructor <;> intro hv <;> rw [dataset_eq] <;> refine List.mem_filterMap.mpr ?_
  · exact ⟨((1 : ℚ), some v), List.mem_append_left _ (List.mem_map.mpr ⟨some v, hv, rfl⟩), rfl⟩
  · exact ⟨((0 : ℚ), some v), List.mem_append_right _ (List.mem_map.mpr ⟨some v, hv, rfl⟩), rfl⟩

/-- C10 witness: the no-data sentinel `-9999` survives filtering and appears in
the dataset with its class label. -/
theorem C10_sentinel_kept_witness :
    ((1 : ℚ), (-9999 : ℚ)) ∈ dataset [some (-9999)] [some 1, none] :=
  (C10_sentinel_kept [some (-9999)] [some 1, none] (-9999)).1 (by simp)

/-- C6: on positive scores `[0.9, 0.7, 0.4]` and negative scores
`[0.6, 0.3, 0.1]` the pipeline computes AUC = 8/9. -/
theorem C6_end_to_end :
    (app_run [some (9/10), some (7/10), some (4/10)]
        [some (6/10), some (3/10), some (1/10)]).map Prod.snd =
      .ok (some (8/9)) := by
  norm_num [app_run, engine, dataset, y_true_v, y_scores_v, y_true, y_scores, validMask,
    maskFilter, sortDesc, sdRel, groupPoints, dropIntermediate, dropAux, keepMid,
    roc_curve, classesOK, classesOf, uniqAdj, dedupScores, sk_auc, diffs, fSub, fAdd, fMul,
    fSum, np_trapz, trapzTerms, fLt0, fLe0, toF, RocOut.width,
    List.insertionSort, List.orderedInsert, Except.map]

/-- C9 counterexample: on two empty inputs the pipeline does not fail with the
typed `EmptyDatasetError` of the specification (no such error exists in the
code). -/
theorem C9_counterexample :
    app_run [] [] ≠ .error .emptyDatasetError := by
  norm_num [app_run, engine, dataset, y_true_v, y_scores_v, y_true, y_scores, validMask,
    maskFilter, sortDesc, sdRel, groupPoints, dropIntermediate, dropAux, keepMid,
    roc_curve, classesOK, classesOf, uniqAdj, dedupScores, sk_auc, diffs, fSub, fAdd, fMul,
    fSum, np_trapz, trapzTerms, fLt0, fLe0, toF, RocOut.width,
    List.insertionSort, List.orderedInsert, Except.map]
  decide

/-- C9 amended: on two empty inputs the pipeline fails, but with a generic
`ValueError` raised by the label validation inside `sklearn.metrics.roc_curve`
(surfaced by the blanket exception handler), not with a typed
`EmptyDatasetError`. -/
theorem C9_amended_generic_error :
    app_run [] [] = .error .sklearnValueError := by
  norm_num [app_run, engine, dataset, y_true_v, y_scores_v, y_true, y_scores, validMask,
    maskFilter, sortDesc, sdRel, groupPoints, dropIntermediate, dropAux, keepMid,
    roc_curve, classesOK, classesOf, uniqAdj, dedupScores, sk_auc, diffs, fSub, fAdd, fMul,
    fSum, np_trapz, trapzTerms, fLt0, fLe0, toF, RocOut.width,
    List.insertionSort, List.orderedInsert, Except.map]

/-- C1 counterexample: with one valid positive score and every negative score
missing, the pipeline does not fail with `InsufficientDataError` (or at all):
it proceeds, `roc_curve` returns an all-NaN `fpr` array (modelled `none`), and
the AUC evaluates to NaN. -/
theorem C1_counterexample :
    app_run [some (1/2)] [none] = .ok (⟨none, some [0, 1], [1/2]⟩, none) := by
  norm_num [app_run, engine, dataset, y_true_v, y_scores_v, y_true, y_scores, validMask,
    maskFilter, sortDesc, sdRel, groupPoints, dropIntermediate, dropAux, keepMid,
    roc_curve, classesOK, classesOf, uniqAdj, dedupScores, sk_auc, diffs, fSub, fAdd, fMul,
    fSum, np_trapz, trapzTerms, fLt0, fLe0, toF, RocOut.width,
    List.insertionSort, List.orderedInsert, Except.map]

/-- C4 counterexample: on the dataset with one positive score `0.9` and
negative scores `0.6, 0.3, 0.1` there are four distinct score values, but the
emitted curve contains only the two thresholds `0.9` and `0.1`:
`drop_intermediate=True` removes the collinear interior points, so assembly
does not place one threshold per distinct score value. -/
theorem C4_counterexample :
    (roc_curve [(1, 9/10), (0, 6/10), (0, 3/10), (0, 1/10)]).map RocOut.thresholds =
        .ok [9/10, 1/10] ∧
      dedupScores (sortDesc [(1, 9/10), (0, 6/10), (0, 3/10), (0, 1/10)]) =
        [9/10, 6/10, 3/10, 1/10] := by
  constructor <;>
  norm_num [app_run, engine, dataset, y_true_v, y_scores_v, y_true, y_scores, validMask,
    maskFilter, sortDesc, sdRel, groupPoints, dropIntermediate, dropAux, keepMid,
    roc_curve, classesOK, classesOf, uniqAdj, dedupScores, sk_auc, diffs, fSub, fAdd, fMul,
    fSum, np_trapz, trapzTerms, fLt0, fLe0, toF, RocOut.width,
    List.insertionSort, List.orderedInsert, Except.map]

/-- C8: the pipeline from score arrays to (RocCurve, AUC) is a pure function:
two invocations on identical inputs produce identical ROC points and AUC, with
no hidden state carried between invocations. -/
theorem C8_deterministic (fl nf fl' nf' : List F) (h1 : fl = fl') (h2 : nf = nf') :
    app_run fl nf = app_run fl' nf' := by
  rw [h1, h2]

/-- C8 witness: two runs on the same concrete input coincide. -/
theorem C8_deterministic_witness :
    app_run [some 1, none] [some 0] = app_run [some 1, none] [some 0] :=
  C8_deterministic [some 1, none] [some 0] [some 1, none] [some 0] rfl rfl

/-- C2: for every labeled dataset with P > 0 and N > 0, the AUC produced by the
trapezoidal rule over the ROC polyline equals
(pairs with positive score strictly above negative score + 0.5 * tied pairs) /
(P * N).  The equality is exact in rational arithmetic, hence in particular
within the tolerance 1e-9 stated by the specification. -/
theorem C2_auc_eq_mannWhitney (y : List (ℚ × ℚ)) (hlab : ∀ e ∈ y, e.1 = 1 ∨ e.1 = 0)
    (hP : 0 < posCount y) (hN : 0 < negCount y) :
    engine_auc y = .ok (some (((gtPairs y : ℚ) + (tiePairs y : ℚ) / 2) /
      ((posCount y : ℚ) * (negCount y : ℚ)))) :=
  engine_auc_mannWhitney y hlab hP hN

/-- C2 witness: a concrete two-sample dataset, with the hypotheses discharged
and the Mann-Whitney value evaluated. -/
theorem C2_auc_eq_mannWhitney_witness :
    engine_auc [((1 : ℚ), (1 : ℚ)), ((0 : ℚ), (0 : ℚ))] =
      .ok (some (((gtPairs [((1 : ℚ), (1 : ℚ)), ((0 : ℚ), (0 : ℚ))] : ℚ) +
          (tiePairs [((1 : ℚ), (1 : ℚ)), ((0 : ℚ), (0 : ℚ))] : ℚ) / 2) /
        ((posCount [((1 : ℚ), (1 : ℚ)), ((0 : ℚ), (0 : ℚ))] : ℚ) *
          (negCount [((1 : ℚ), (1 : ℚ)), ((0 : ℚ), (0 : ℚ))] : ℚ)))) :=
  C2_auc_eq_mannWhitney [((1 : ℚ), (1 : ℚ)), ((0 : ℚ), (0 : ℚ))]
    (by intro e he; rcases List.mem_cons.mp he with rfl | he2
        · left; rfl
        · rcases List.mem_cons.mp he2 with rfl | he3
          · right; rfl
          · simp at he3)
    (by norm_num [posCount, List.countP_cons])
    (by norm_num [negCount, List.countP_cons])

/-- C7: perfect separation yields AUC = 1, and fully tied scores yield
AUC = 0.5, for every labeled dataset with both classes present. -/
theorem C7_boundary_auc (y : List (ℚ × ℚ)) (hlab : ∀ e ∈ y, e.1 = 1 ∨ e.1 = 0)
    (hP : 0 < posCount y) (hN : 0 < negCount y) :
    ((∀ p ∈ posScores y, ∀ n ∈ negScores y, n < p) → engine_auc y = .ok (some 1)) ∧
      ((∀ a ∈ y, ∀ b ∈ y, a.2 = b.2) → engine_auc y = .ok (some (1 / 2))) := by
  have hPQ : ((posCount y : ℚ)) ≠ 0 := Nat.cast_ne_zero.mpr (Nat.pos_iff_ne_zero.mp hP)
  have hNQ : ((negCount y : ℚ)) ≠ 0 := Nat.cast_ne_zero.mpr (Nat.pos_iff_ne_zero.mp hN)
  constructor
  · intro hsep
    rw [engine_auc_mannWhitney y hlab hP hN]
    have hgt : gtPairs y = posCount y * negCount y := by
      rw [gtPairs]
      rw [List.map_congr_left (fun p hp => List.countP_eq_length.mpr
        (fun n hn => by simp [hsep p hp n hn]))]
      rw [sum_map_constN, posScores_length, negScores_length]
    have hties : tiePairs y = 0 := by
      rw [tiePairs]
      rw [List.map_congr_left (fun p hp => List.countP_eq_zero.mpr
        (fun n hn => by simp [ne_of_lt (hsep p hp n hn)]))]
      simp [sum_map_constN]
    rw [hgt, hties]
    push_cast
    rw [Option.some_inj.symm.mp rfl]
    congr 1
    field_simp
  · intro hflat
    rw [engine_auc_mannWhitney y hlab hP hN]
    have hscore : ∀ p ∈ posScores y, ∀ n ∈ negScores y, n = p := by
      intro p hp n hn
      rcases mem_posScores hp with ⟨e1, he1, rfl⟩
      rcases mem_negScores hn with ⟨e2, he2, rfl⟩
      exact hflat e2 he2 e1 he1
    have hgt : gtPairs y = 0 := by
      rw [gtPairs]
      rw [List.map_congr_left (fun p hp => List.countP_eq_zero.mpr
        (fun n hn => by simp [hscore p hp n hn]))]
      simp [sum_map_constN]
    have hties : tiePairs y = posCount y * negCount y := by
      rw [tiePairs]
      rw [List.map_congr_left (fun p hp => List.countP_eq_length.mpr
        (fun n hn => by simp [hscore p hp n hn]))]
      rw [sum_map_constN, posScores_length, negScores_length]
    rw [hgt, hties]
    push_cast
    congr 1
    field_simp
    ring

/-- C7 witness: perfect separation on [(1, 1), (0, 0)] gives AUC 1; the fully
tied dataset [(1, 1/2), (0, 1/2)] gives AUC 1/2. -/
theorem C7_boundary_auc_witness :
    engine_auc [((1 : ℚ), (1 : ℚ)), ((0 : ℚ), (0 : ℚ))] = .ok (some 1) ∧
      engine_auc [((1 : ℚ), (1 : ℚ) / 2), ((0 : ℚ), (1 : ℚ) / 2)] = .ok (some (1 / 2)) := by
  constructor
  · refine (C7_boundary_auc [((1 : ℚ), (1 : ℚ)), ((0 : ℚ), (0 : ℚ))] ?_ ?_ ?_).1 ?_
    · intro e he; rcases List.mem_cons.mp he with rfl | he2
      · left; rfl
      · rcases List.mem_cons.mp he2 with rfl | he3
        · right; rfl
        · simp at he3
    · norm_num [posCount, List.countP_cons]
    · norm_num [negCount, List.countP_cons]
    · intro p hp n hn
      have hps : posScores [((1 : ℚ), (1 : ℚ)), ((0 : ℚ), (0 : ℚ))] = [1] := by
        norm_num [posScores, List.filter_cons]
      have hns : negScores [((1 : ℚ), (1 : ℚ)), ((0 : ℚ), (0 : ℚ))] = [0] := by
        norm_num [negScores, List.filter_cons]
      rw [hps] at hp
      rw [hns] at hn
      rw [List.mem_singleton.mp hp, List.mem_singleton.mp hn]
      norm_num
  · refine (C7_boundary_auc [((1 : ℚ), (1 : ℚ) / 2), ((0 : ℚ), (1 : ℚ) / 2)] ?_ ?_ ?_).2 ?_
    · intro e he; rcases List.mem_cons.mp he with rfl | he2
      · left; rfl
      · rcases List.mem_cons.mp he2 with rfl | he3
        · right; rfl
        · simp at he3
    · norm_num [posCount, List.countP_cons]
    · norm_num [negCount, List.countP_cons]
    · intro a ha b hb
      rcases List.mem_cons.mp ha with rfl | ha2
      · rcases List.mem_cons.mp hb with rfl | hb2
        · rfl
        · rcases List.mem_cons.mp hb2 with rfl | hb3
          · rfl
          · simp at hb3
      · rcases List.mem_cons.mp ha2 with rfl | ha3
        · rcases List.mem_cons.mp hb with rfl | hb2
          · rfl
          · rcases List.mem_cons.mp hb2 with rfl | hb3
            · rfl
            · simp at hb3
        · simp at ha3

theorem cons_getLast?_of_ne_nil {α : Type} (a : α) (l : List α) (h : l ≠ []) :
    (a :: l).getLast? = l.getLast? := by
  obtain ⟨b, l', rfl⟩ := List.exists_cons_of_ne_nil h
  exact List.getLast?_cons_cons

theorem pts_map_ne_nil {β : Type} (y : List (ℚ × ℚ)) (hyne : y ≠ []) (f : Pt → β) :
    (dropIntermediate (groupPoints (sortDesc y) 0 0)).map f ≠ [] := by
  intro hc
  rw [List.map_eq_nil_iff] at hc
  obtain ⟨e, S0, hS⟩ := List.exists_cons_of_ne_nil (sortDesc_ne_nil hyne)
  rw [hS] at hc
  exact dropIntermediate_ne_nil _ (groupPoints_ne_nil e S0 0 0) hc

theorem pts_fp_getLast? (y : List (ℚ × ℚ)) (hyne : y ≠ []) :
    ((0 : ℕ) :: (dropIntermediate (groupPoints (sortDesc y) 0 0)).map Pt.fp).getLast? =
      some (negCount y) := by
  obtain ⟨q, hq, hqfp, _⟩ := groupPoints_getLast (sortDesc y) (sortDesc_ne_nil hyne) 0 0
  have hlast : (dropIntermediate (groupPoints (sortDesc y) 0 0)).getLast? = some q := by
    rw [dropIntermediate_getLast?, hq]
  have hmap : ((dropIntermediate (groupPoints (sortDesc y) 0 0)).map Pt.fp).getLast? =
      some q.fp := by
    rw [List.getLast?_map, hlast]; rfl
  rw [cons_getLast?_of_ne_nil _ _ (pts_map_ne_nil y hyne Pt.fp), hmap, hqfp, Nat.zero_add,
    negCount_perm (sortDesc_perm y)]

theorem pts_tp_getLast? (y : List (ℚ × ℚ)) (hyne : y ≠ []) :
    ((0 : ℕ) :: (dropIntermediate (groupPoints (sortDesc y) 0 0)).map Pt.tp).getLast? =
      some (posCount y) := by
  obtain ⟨q, hq, _, hqtp⟩ := groupPoints_getLast (sortDesc y) (sortDesc_ne_nil hyne) 0 0
  have hlast : (dropIntermediate (groupPoints (sortDesc y) 0 0)).getLast? = some q := by
    rw [dropIntermediate_getLast?, hq]
  have hmap : ((dropIntermediate (groupPoints (sortDesc y) 0 0)).map Pt.tp).getLast? =
      some q.tp := by
    rw [List.getLast?_map, hlast]; rfl
  rw [cons_getLast?_of_ne_nil _ _ (pts_map_ne_nil y hyne Pt.tp), hmap, hqtp, Nat.zero_add,
    posCount_perm (sortDesc_perm y)]

/-- C3: for every labeled dataset with P > 0 and N > 0, `roc_curve` returns fpr
and tpr sequences that are monotonically non-decreasing, bounded in [0, 1],
starting at (0, 0) and ending at (1, 1). -/
theorem C3_curve_shape (y : List (ℚ × ℚ)) (hlab : ∀ e ∈ y, e.1 = 1 ∨ e.1 = 0)
    (hP : 0 < posCount y) (hN : 0 < negCount y) :
    ∃ (lf lt : List ℚ) (th : List ℚ),
      roc_curve y = .ok ⟨some lf, some lt, th⟩ ∧
        List.Sorted (· ≤ ·) lf ∧ List.Sorted (· ≤ ·) lt ∧
        (∀ q ∈ lf, 0 ≤ q ∧ q ≤ 1) ∧ (∀ q ∈ lt, 0 ≤ q ∧ q ≤ 1) ∧
        lf.head? = some 0 ∧ lt.head? = some 0 ∧
        lf.getLast? = some 1 ∧ lt.getLast? = some 1 := by
  have hyne : y ≠ [] := y_ne_nil_of_posCount hP
  have hroc := roc_curve_eq y hlab hP hN
  have hNQ : ((negCount y : ℚ)) ≠ 0 := Nat.cast_ne_zero.mpr (Nat.pos_iff_ne_zero.mp hN)
  have hPQ : ((posCount y : ℚ)) ≠ 0 := Nat.cast_ne_zero.mpr (Nat.pos_iff_ne_zero.mp hP)
  have hfp_pair : List.Pairwise (fun a b : ℕ => a ≤ b)
      (0 :: (dropIntermediate (groupPoints (sortDesc y) 0 0)).map Pt.fp) := by
    refine List.pairwise_cons.mpr ⟨fun k _ => Nat.zero_le k, ?_⟩
    exact List.Pairwise.map _ (fun a b h => h)
      (List.Pairwise.sublist (dropIntermediate_sublist _) (groupPoints_fp_pairwise y))
  have htp_pair : List.Pairwise (fun a b : ℕ => a ≤ b)
      (0 :: (dropIntermediate (groupPoints (sortDesc y) 0 0)).map Pt.tp) := by
    refine List.pairwise_cons.mpr ⟨fun k _ => Nat.zero_le k, ?_⟩
    exact List.Pairwise.map _ (fun a b h => h)
      (List.Pairwise.sublist (dropIntermediate_sublist _) (groupPoints_tp_pairwise y))
  have hfp_le : ∀ k ∈ (0 :: (dropIntermediate (groupPoints (sortDesc y) 0 0)).map Pt.fp),
      k ≤ negCount y := by
    intro k hk
    rcases List.mem_cons.mp hk with rfl | hk2
    · exact Nat.zero_le _
    · rcases List.mem_map.mp hk2 with ⟨q, hq, rfl⟩
      exact groupPoints_fp_le y q ((dropIntermediate_sublist _).mem hq)
  have htp_le : ∀ k ∈ (0 :: (dropIntermediate (groupPoints (sortDesc y) 0 0)).map Pt.tp),
      k ≤ posCount y := by
    intro k hk
    rcases List.mem_cons.mp hk with rfl | hk2
    · exact Nat.zero_le _
    · rcases List.mem_map.mp hk2 with ⟨q, hq, rfl⟩
      exact groupPoints_tp_le y q ((dropIntermediate_sublist _).mem hq)
  refine ⟨_, _, _, hroc, ?_, ?_, ?_, ?_, ?_, ?_, ?_, ?_⟩
  · exact rate_list_sorted _ (negCount y) hN hfp_pair
  · exact rate_list_sorted _ (posCount y) hP htp_pair
  · exact rate_list_mem_bounds _ (negCount y) hN hfp_le
  · exact rate_list_mem_bounds _ (posCount y) hP htp_le
  · simp
  · simp
  · rw [List.getLast?_map, pts_fp_getLast? y hyne]
    simp [div_self hNQ]
  · rw [List.getLast?_map, pts_tp_getLast? y hyne]
    simp [div_self hPQ]

/-- C3 witness: the concrete dataset [(1, 1), (0, 0)] satisfies every curve
shape property. -/
theorem C3_curve_shape_witness :
    ∃ (lf lt : List ℚ) (th : List ℚ),
      roc_curve [((1 : ℚ), (1 : ℚ)), ((0 : ℚ), (0 : ℚ))] = .ok ⟨some lf, some lt, th⟩ ∧
        List.Sorted (· ≤ ·) lf ∧ List.Sorted (· ≤ ·) lt ∧
        (∀ q ∈ lf, 0 ≤ q ∧ q ≤ 1) ∧ (∀ q ∈ lt, 0 ≤ q ∧ q ≤ 1) ∧
        lf.head? = some 0 ∧ lt.head? = some 0 ∧
        lf.getLast? = some 1 ∧ lt.getLast? = some 1 :=
  C3_curve_shape [((1 : ℚ), (1 : ℚ)), ((0 : ℚ), (0 : ℚ))]
    (by intro e he; rcases List.mem_cons.mp he with rfl | he2
        · left; rfl
        · rcases List.mem_cons.mp he2 with rfl | he3
          · right; rfl
          · simp at he3)
    (by norm_num [posCount, List.countP_cons])
    (by norm_num [negCount, List.countP_cons])

theorem cnGE_perm {y y' : List (ℚ × ℚ)} (h : List.Perm y y') (d : ℚ) :
    cnGE y d = cnGE y' d := h.countP_eq _

theorem cpGE_perm {y y' : List (ℚ × ℚ)} (h : List.Perm y y') (d : ℚ) :
    cpGE y d = cpGE y' d := h.countP_eq _

/-- C4 amended: the emitted thresholds are a strictly descending subsequence of
the distinct score values (so tie groups are never split and no threshold is
repeated), always retaining the highest and lowest distinct score; every
emitted point at threshold `d` has fpr = (negatives scoring at or above `d`)/N
and tpr = (positives scoring at or above `d`)/P; but `drop_intermediate=True`
removes interior collinear candidates, so not every distinct score yields a
threshold. -/
theorem C4_amended_thresholds (y : List (ℚ × ℚ)) (hlab : ∀ e ∈ y, e.1 = 1 ∨ e.1 = 0)
    (hP : 0 < posCount y) (hN : 0 < negCount y) :
    ∃ th : List ℚ,
      (roc_curve y).map RocOut.thresholds = .ok th ∧
        th.Sublist (dedupScores (sortDesc y)) ∧
        List.Pairwise (fun a b : ℚ => b < a) th ∧
        th.head? = (dedupScores (sortDesc y)).head? ∧
        th.getLast? = (dedupScores (sortDesc y)).getLast? ∧
        (roc_curve y).map RocOut.fpr =
          .ok (some ((0 :: th.map (fun d => cnGE y d)).map
            (fun k : ℕ => (k : ℚ) / (negCount y : ℚ)))) ∧
        (roc_curve y).map RocOut.tpr =
          .ok (some ((0 :: th.map (fun d => cpGE y d)).map
            (fun k : ℕ => (k : ℚ) / (posCount y : ℚ)))) := by
  have hroc := roc_curve_eq y hlab hP hN
  have hclosed := groupPoints_closed (sortDesc y) (sortDesc_sorted y) 0 0
  have hsub_pts := dropIntermediate_sublist (groupPoints (sortDesc y) 0 0)
  have h1 : (groupPoints (sortDesc y) 0 0).map Pt.thr = dedupScores (sortDesc y) := by
    rw [hclosed, List.map_map]
    simp only [Nat.zero_add]
    rw [show (Pt.thr ∘ fun d : ℚ =>
        ({ fp := cnGE (sortDesc y) d, tp := cpGE (sortDesc y) d, thr := d } : Pt)) =
      fun d : ℚ => d from rfl]
    exact List.map_id' _
  have hshape : ∀ q ∈ dropIntermediate (groupPoints (sortDesc y) 0 0),
      q.fp = cnGE y q.thr ∧ q.tp = cpGE y q.thr := by
    intro q hq
    have hq2 : q ∈ groupPoints (sortDesc y) 0 0 := hsub_pts.mem hq
    rw [hclosed] at hq2
    rcases List.mem_map.mp hq2 with ⟨d, _, rfl⟩
    exact ⟨by simpa using (cnGE_perm (sortDesc_perm y) d),
      by simpa using (cpGE_perm (sortDesc_perm y) d)⟩
  have hfp_eq : (dropIntermediate (groupPoints (sortDesc y) 0 0)).map Pt.fp =
      ((dropIntermediate (groupPoints (sortDesc y) 0 0)).map Pt.thr).map
        (fun d => cnGE y d) := by
    rw [List.map_map]
    exact List.map_congr_left (fun q hq => (hshape q hq).1)
  have htp_eq : (dropIntermediate (groupPoints (sortDesc y) 0 0)).map Pt.tp =
      ((dropIntermediate (groupPoints (sortDesc y) 0 0)).map Pt.thr).map
        (fun d => cpGE y d) := by
    rw [List.map_map]
    exact List.map_congr_left (fun q hq => (hshape q hq).2)
  refine ⟨(dropIntermediate (groupPoints (sortDesc y) 0 0)).map Pt.thr, ?_, ?_, ?_, ?_, ?_, ?_, ?_⟩
  · rw [hroc]; rfl
  · rw [← h1]
    exact List.Sublist.map Pt.thr hsub_pts
  · refine List.Pairwise.sublist ?_ (dedupScores_pairwise_gt y)
    rw [← h1]
    exact List.Sublist.map Pt.thr hsub_pts
  · rw [← h1, List.head?_map, List.head?_map, dropIntermediate_head?]
  · rw [← h1, List.getLast?_map, List.getLast?_map, dropIntermediate_getLast?]
  · rw [hroc, ← hfp_eq]; rfl
  · rw [hroc, ← htp_eq]; rfl

/-- C4 amended witness: the dataset of the counterexample, with hypotheses
discharged. -/
theorem C4_amended_thresholds_witness :
    ∃ th : List ℚ,
      (roc_curve [((1 : ℚ), (9 : ℚ)/10), ((0 : ℚ), (6 : ℚ)/10), ((0 : ℚ), (3 : ℚ)/10),
          ((0 : ℚ), (1 : ℚ)/10)]).map RocOut.thresholds = .ok th ∧
        th.Sublist (dedupScores (sortDesc [((1 : ℚ), (9 : ℚ)/10), ((0 : ℚ), (6 : ℚ)/10),
          ((0 : ℚ), (3 : ℚ)/10), ((0 : ℚ), (1 : ℚ)/10)])) ∧
        List.Pairwise (fun a b : ℚ => b < a) th ∧
        th.head? = (dedupScores (sortDesc [((1 : ℚ), (9 : ℚ)/10), ((0 : ℚ), (6 : ℚ)/10),
          ((0 : ℚ), (3 : ℚ)/10), ((0 : ℚ), (1 : ℚ)/10)])).head? ∧
        th.getLast? = (dedupScores (sortDesc [((1 : ℚ), (9 : ℚ)/10), ((0 : ℚ), (6 : ℚ)/10),
          ((0 : ℚ), (3 : ℚ)/10), ((0 : ℚ), (1 : ℚ)/10)])).getLast? ∧
        (roc_curve [((1 : ℚ), (9 : ℚ)/10), ((0 : ℚ), (6 : ℚ)/10), ((0 : ℚ), (3 : ℚ)/10),
          ((0 : ℚ), (1 : ℚ)/10)]).map RocOut.fpr =
          .ok (some ((0 :: th.map (fun d => cnGE [((1 : ℚ), (9 : ℚ)/10), ((0 : ℚ), (6 : ℚ)/10),
            ((0 : ℚ), (3 : ℚ)/10), ((0 : ℚ), (1 : ℚ)/10)] d)).map
            (fun k : ℕ => (k : ℚ) / (negCount [((1 : ℚ), (9 : ℚ)/10), ((0 : ℚ), (6 : ℚ)/10),
              ((0 : ℚ), (3 : ℚ)/10), ((0 : ℚ), (1 : ℚ)/10)] : ℚ)))) ∧
        (roc_curve [((1 : ℚ), (9 : ℚ)/10), ((0 : ℚ), (6 : ℚ)/10), ((0 : ℚ), (3 : ℚ)/10),
          ((0 : ℚ), (1 : ℚ)/10)]).map RocOut.tpr =
          .ok (some ((0 :: th.map (fun d => cpGE [((1 : ℚ), (9 : ℚ)/10), ((0 : ℚ), (6 : ℚ)/10),
            ((0 : ℚ), (3 : ℚ)/10), ((0 : ℚ), (1 : ℚ)/10)] d)).map
            (fun k : ℕ => (k : ℚ) / (posCount [((1 : ℚ), (9 : ℚ)/10), ((0 : ℚ), (6 : ℚ)/10),
              ((0 : ℚ), (3 : ℚ)/10), ((0 : ℚ), (1 : ℚ)/10)] : ℚ)))) :=
  C4_amended_thresholds
    [((1 : ℚ), (9 : ℚ)/10), ((0 : ℚ), (6 : ℚ)/10), ((0 : ℚ), (3 : ℚ)/10), ((0 : ℚ), (1 : ℚ)/10)]
    (by intro e he
        rcases List.mem_cons.mp he with rfl | he2
        · left; rfl
        · rcases List.mem_cons.mp he2 with rfl | he3
          · right; rfl
          · rcases List.mem_cons.mp he3 with rfl | he4
            · right; rfl
            · rcases List.mem_cons.mp he4 with rfl | he5
              · right; rfl
              · simp at he5)
    (by norm_num [posCount, List.countP_cons])
    (by norm_num [negCount, List.countP_cons])

/-! ## One-class datasets: NaN rates and NaN AUC -/

theorem y_ne_nil_of_negCount {y : List (ℚ × ℚ)} (hN : 0 < negCount y) : y ≠ [] := by
  intro hc
  rw [hc] at hN
  simp [negCount] at hN

theorem labels_all_one (y : List (ℚ × ℚ)) (hlab : ∀ e ∈ y, e.1 = 1 ∨ e.1 = 0)
    (hN0 : negCount y = 0) : ∀ e ∈ y, e.1 = 1 := by
  intro e he
  rcases hlab e he with h | h
  · exact h
  · exfalso
    have : 0 < negCount y := List.countP_pos.mpr ⟨e, he, by simp [h]⟩
    omega

theorem labels_all_zero (y : List (ℚ × ℚ)) (hlab : ∀ e ∈ y, e.1 = 1 ∨ e.1 = 0)
    (hP0 : posCount y = 0) : ∀ e ∈ y, e.1 = 0 := by
  intro e he
  rcases hlab e he with h | h
  · exfalso
    have : 0 < posCount y := List.countP_pos.mpr ⟨e, he, by simp [h]⟩
    omega
  · exact h

theorem classesOf_all_one (y : List (ℚ × ℚ)) (hne : y ≠ []) (h : ∀ e ∈ y, e.1 = 1) :
    classesOf y = [1] := by
  rw [classesOf]
  have hperm : List.Perm ((y.map Prod.fst).insertionSort (· ≤ ·)) (y.map Prod.fst) :=
    List.perm_insertionSort _ _
  refine uniqAdj_const 1 _ ?_ ?_
  · intro hc
    have : y.map Prod.fst = [] := by
      have := hperm.length_eq
      rw [hc] at this
      exact List.length_eq_zero.mp this.symm
    exact hne (List.map_eq_nil_iff.mp this)
  · intro x hx
    rcases List.mem_map.mp (hperm.mem_iff.mp hx) with ⟨e, he, rfl⟩
    exact h e he

theorem classesOf_all_zero (y : List (ℚ × ℚ)) (hne : y ≠ []) (h : ∀ e ∈ y, e.1 = 0) :
    classesOf y = [0] := by
  rw [classesOf]
  have hperm : List.Perm ((y.map Prod.fst).insertionSort (· ≤ ·)) (y.map Prod.fst) :=
    List.perm_insertionSort _ _
  refine uniqAdj_const 0 _ ?_ ?_
  · intro hc
    have : y.map Prod.fst = [] := by
      have := hperm.length_eq
      rw [hc] at this
      exact List.length_eq_zero.mp this.symm
    exact hne (List.map_eq_nil_iff.mp this)
  · intro x hx
    rcases List.mem_map.mp (hperm.mem_iff.mp hx) with ⟨e, he, rfl⟩
    exact h e he

/-- `roc_curve` on a dataset with positives only: NaN fpr array, valid tpr. -/
theorem roc_curve_eq_noNeg (y : List (ℚ × ℚ)) (hlab : ∀ e ∈ y, e.1 = 1 ∨ e.1 = 0)
    (hP : 0 < posCount y) (hN0 : negCount y = 0) :
    roc_curve y = .ok
      ⟨none,
        some ((0 :: (dropIntermediate (groupPoints (sortDesc y) 0 0)).map Pt.tp).map
          (fun k : ℕ => (k : ℚ) / (posCount y : ℚ))),
        (dropIntermediate (groupPoints (sortDesc y) 0 0)).map Pt.thr⟩ := by
  have hyne : y ≠ [] := y_ne_nil_of_posCount hP
  have hcls : classesOf y = [1] := classesOf_all_one y hyne (labels_all_one y hlab hN0)
  have hOK : classesOK y = true := by simp [classesOK, hcls]
  have h2 := pts_fp_last y hyne
  have h3 := pts_tp_last y hyne
  have hP' : posCount y ≠ 0 := Nat.pos_iff_ne_zero.mp hP
  rw [List.getLastD_eq_getLast?, List.getLast?_map] at h2 h3
  rw [hN0] at h2
  simp [roc_curve, hOK, h2, h3, hP']

/-- `roc_curve` on a dataset with negatives only: valid fpr, NaN tpr array. -/
theorem roc_curve_eq_noPos (y : List (ℚ × ℚ)) (hlab : ∀ e ∈ y, e.1 = 1 ∨ e.1 = 0)
    (hP0 : posCount y = 0) (hN : 0 < negCount y) :
    roc_curve y = .ok
      ⟨some ((0 :: (dropIntermediate (groupPoints (sortDesc y) 0 0)).map Pt.fp).map
          (fun k : ℕ => (k : ℚ) / (negCount y : ℚ))),
        none,
        (dropIntermediate (groupPoints (sortDesc y) 0 0)).map Pt.thr⟩ := by
  have hyne : y ≠ [] := y_ne_nil_of_negCount hN
  have hcls : classesOf y = [0] := classesOf_all_zero y hyne (labels_all_zero y hlab hP0)
  have hOK : classesOK y = true := by simp [classesOK, hcls]
  have h2 := pts_fp_last y hyne
  have h3 := pts_tp_last y hyne
  have hN' : negCount y ≠ 0 := Nat.pos_iff_ne_zero.mp hN
  rw [List.getLastD_eq_getLast?, List.getLast?_map] at h2 h3
  rw [hP0] at h3
  simp [roc_curve, hOK, h2, h3, hN']

theorem fMul_none_right (a : F) : fMul a none = none := by cases a <;> rfl

theorem diffs_replicate_none : ∀ (n : ℕ), ∀ x ∈ diffs (List.replicate n (none : F)), x = (none : F) := by
  intro n
  induction n with
  | zero => intro x hx; simp [diffs] at hx
  | succ n ih =>
    intro x hx
    cases n with
    | zero =>
      rw [show diffs (List.replicate 1 (none : F)) = [] from rfl] at hx
      exact absurd hx (List.not_mem_nil x)
    | succ n' =>
      rw [show diffs (List.replicate (n' + 1 + 1) (none : F)) =
          fSub none none :: diffs (List.replicate (n' + 1) (none : F)) from rfl] at hx
      rcases List.mem_cons.mp hx with h | h
      · rw [h]; rfl
      · exact ih x h

theorem np_trapz_nan_x (ys : List F) (hy : 2 ≤ ys.length) (n : ℕ) (hn : 2 ≤ n) :
    np_trapz ys (List.replicate n (none : F)) = none := by
  obtain ⟨n', rfl⟩ : ∃ n', n = n' + 2 := ⟨n - 2, by omega⟩
  cases ys with
  | nil => simp at hy
  | cons y1 ys' =>
    cases ys' with
    | nil => simp at hy
    | cons y2 yr => rfl

theorem np_trapz_nan_y (xs : List F) (hx : 2 ≤ xs.length) (n : ℕ) (hn : 2 ≤ n) :
    np_trapz (List.replicate n (none : F)) xs = none := by
  obtain ⟨n', rfl⟩ : ∃ n', n = n' + 2 := ⟨n - 2, by omega⟩
  cases xs with
  | nil => simp at hx
  | cons x1 xs' =>
    cases xs' with
    | nil => simp at hx
    | cons x2 xr =>
      show fSum (trapzTerms (x1 :: x2 :: xr)
        (none :: none :: List.replicate n' (none : F))) = none
      rw [trapzTerms]
      rw [show fMul (fAdd (none : F) none) (some (1/2)) = none from rfl]
      rw [fMul_none_right]
      rfl

theorem sk_auc_nan_x (w : ℕ) (hw : 2 ≤ w) (ys : List F) (hy : 2 ≤ ys.length) :
    sk_auc (List.replicate w (none : F)) ys = .ok none := by
  have hlen2 : ¬(List.replicate w (none : F)).length < 2 := by
    simp only [List.length_replicate]
    omega
  have hany : (diffs (List.replicate w (none : F))).any fLt0 = false :=
    List.any_eq_false.mpr (fun x hx => by rw [diffs_replicate_none w x hx]; simp [fLt0])
  simp only [sk_auc, hlen2, if_false, hany, Bool.false_eq_true]
  rw [np_trapz_nan_x ys hy w hw]

theorem sk_auc_nan_y (lf : List ℚ) (hsort : List.Pairwise (fun a b : ℚ => a ≤ b) lf)
    (hlen : 2 ≤ lf.length) (w : ℕ) (hw : 2 ≤ w) :
    sk_auc (lf.map some) (List.replicate w (none : F)) = .ok none := by
  have hlen2 : ¬(lf.map some).length < 2 := by
    simp only [List.length_map]
    omega
  have hany : (diffs (lf.map some)).any fLt0 = false :=
    List.any_eq_false.mpr (fun x hx => by simp [diffs_map_some_nonneg lf hsort x hx])
  simp only [sk_auc, hlen2, if_false, hany, Bool.false_eq_true]
  rw [np_trapz_nan_y (lf.map some) (by simpa using hlen) w hw]

/-- On a one-class dataset the engine completes without error, returning the
NaN rate array for the missing class and a NaN AUC. -/
theorem engine_oneClass_nan (y : List (ℚ × ℚ)) (hlab : ∀ e ∈ y, e.1 = 1 ∨ e.1 = 0)
    (h : (0 < posCount y ∧ negCount y = 0) ∨ (posCount y = 0 ∧ 0 < negCount y)) :
    ∃ o : RocOut, engine y = .ok (o, none) ∧
      (negCount y = 0 → o.fpr = none) ∧ (posCount y = 0 → o.tpr = none) := by
  rcases h with ⟨hP, hN0⟩ | ⟨hP0, hN⟩
  · have hroc := roc_curve_eq_noNeg y hlab hP hN0
    have hyne : y ≠ [] := y_ne_nil_of_posCount hP
    have hpts1 : 1 ≤ (dropIntermediate (groupPoints (sortDesc y) 0 0)).length := by
      refine List.length_pos.mpr ?_
      obtain ⟨e, S0, hS⟩ := List.exists_cons_of_ne_nil (sortDesc_ne_nil hyne)
      rw [hS]
      exact dropIntermediate_ne_nil _ (groupPoints_ne_nil e S0 0 0)
    have hw : 2 ≤ ((dropIntermediate (groupPoints (sortDesc y) 0 0)).map Pt.thr).length + 1 := by
      simp only [List.length_map]
      omega
    have hylen : 2 ≤ (((0 :: (dropIntermediate (groupPoints (sortDesc y) 0 0)).map Pt.tp).map
        (fun k : ℕ => (k : ℚ) / (posCount y : ℚ))).map some).length := by
      simp only [List.length_map, List.length_cons]
      omega
    refine ⟨⟨none,
        some ((0 :: (dropIntermediate (groupPoints (sortDesc y) 0 0)).map Pt.tp).map
          (fun k : ℕ => (k : ℚ) / (posCount y : ℚ))),
        (dropIntermediate (groupPoints (sortDesc y) 0 0)).map Pt.thr⟩,
      ?_, fun _ => rfl, fun hc => absurd hc (Nat.pos_iff_ne_zero.mp hP)⟩
    simp only [engine, hroc, toF, RocOut.width]
    rw [sk_auc_nan_x _ hw _ hylen]
  · have hroc := roc_curve_eq_noPos y hlab hP0 hN
    have hyne : y ≠ [] := y_ne_nil_of_negCount hN
    have hpts1 : 1 ≤ (dropIntermediate (groupPoints (sortDesc y) 0 0)).length := by
      refine List.length_pos.mpr ?_
      obtain ⟨e, S0, hS⟩ := List.exists_cons_of_ne_nil (sortDesc_ne_nil hyne)
      rw [hS]
      exact dropIntermediate_ne_nil _ (groupPoints_ne_nil e S0 0 0)
    have hw : 2 ≤ ((dropIntermediate (groupPoints (sortDesc y) 0 0)).map Pt.thr).length + 1 := by
      simp only [List.length_map]
      omega
    have hfp_pair : List.Pairwise (fun a b : ℕ => a ≤ b)
        (0 :: (dropIntermediate (groupPoints (sortDesc y) 0 0)).map Pt.fp) := by
      refine List.pairwise_cons.mpr ⟨fun k _ => Nat.zero_le k, ?_⟩
      exact List.Pairwise.map _ (fun a b h => h)
        (List.Pairwise.sublist (dropIntermediate_sublist _) (groupPoints_fp_pairwise y))
    have hsorted := rate_list_sorted _ (negCount y) hN hfp_pair
    have hlen : 2 ≤ (((0 :: (dropIntermediate (groupPoints (sortDesc y) 0 0)).map Pt.fp)).map
        (fun k : ℕ => (k : ℚ) / (negCount y : ℚ))).length := by
      simp only [List.length_map, List.length_cons]
      omega
    refine ⟨⟨some ((0 :: (dropIntermediate (groupPoints (sortDesc y) 0 0)).map Pt.fp).map
          (fun k : ℕ => (k : ℚ) / (negCount y : ℚ))),
        none,
        (dropIntermediate (groupPoints (sortDesc y) 0 0)).map Pt.thr⟩,
      ?_, fun hc => absurd hc (Nat.pos_iff_ne_zero.mp hN), fun _ => rfl⟩
    simp only [engine, hroc, toF, RocOut.width]
    rw [sk_auc_nan_y _ hsorted hlen _ hw]

/-- C1 amended: when, after removing NaN scores, one class is empty and the
other non-empty, the pipeline does not raise any typed error (there is no
`InsufficientDataError` in the code): `roc_curve` emits an all-NaN rate array
for the undefined class, and the trapezoidal AUC evaluates to NaN, which is
returned as the displayed result. -/
theorem C1_amended_nan (flood nonflood : List F)
    (h : (0 < validCount flood ∧ validCount nonflood = 0) ∨
      (validCount flood = 0 ∧ 0 < validCount nonflood)) :
    ∃ o : RocOut, app_run flood nonflood = .ok (o, none) ∧
      (validCount nonflood = 0 → o.fpr = none) ∧
      (validCount flood = 0 → o.tpr = none) := by
  have hlab := dataset_labels flood nonflood
  have hpc := posCount_dataset flood nonflood
  have hnc := negCount_dataset flood nonflood
  obtain ⟨o, ho, h1, h2⟩ := engine_oneClass_nan (dataset flood nonflood) hlab (by
    rcases h with ⟨ha, hb⟩ | ⟨ha, hb⟩
    · left; constructor <;> omega
    · right; constructor <;> omega)
  exact ⟨o, ho, fun hc => h1 (by omega), fun hc => h2 (by omega)⟩

/-- C1 amended witness: one valid positive score and one NaN negative score. -/
theorem C1_amended_nan_witness :
    ∃ o : RocOut, app_run [some ((3 : ℚ)/4)] [none] = .ok (o, none) ∧
      (validCount [(none : F)] = 0 → o.fpr = none) ∧
      (validCount [some ((3 : ℚ)/4)] = 0 → o.tpr = none) :=
  C1_amended_nan [some ((3 : ℚ)/4)] [none]
    (Or.inl ⟨by norm_num [validCount, List.countP_cons], by norm_num [validCount, List.countP_cons]⟩)

end FloodROC
